import Mathlib

/-!
Verification of the N-AI state-space search engine.

The repository is a Python state-space search library.  We give a shallow
embedding of the search algorithms in `src/core/search_algorithms/` and of
the shared data model, and prove the specification claims about them.

Numbers: Python floats used by the code only ever enter decisions through
order comparisons and exact arithmetic on small values, so costs and values
are embedded as rationals, with `WithTop ℚ` playing the role of
`float('inf')` where the code uses it.

Loops (`while`, unbounded `for`) are embedded with an explicit fuel
parameter; `Option.none` as an outer result means the fuel ran out (the
Python loop would still be running).  `for t in range(sys.maxsize)` loops
are embedded the same way, with the fuel standing for `sys.maxsize`.
-/

variable {σ : Type} {α : Type} {β : Type} {κ : Type}

/-- Modelled from the spec: the class `src.core.problem.Node` is imported by
every algorithm but is not under `src/`.  Per the spec (§3), a Node holds a
state, an optional parent back-reference, the action that produced it, the
accumulated path cost (`0` at the root) and the depth (`0` at the root,
`parent.depth + 1` otherwise). -/
inductive Node (σ : Type) (α : Type) : Type where
  | mk (state : σ) (parent : Option (Node σ α)) (action : Option α)
       (path_cost : ℚ) (depth : ℕ)

def Node.state : Node σ α → σ
  | .mk s _ _ _ _ => s

def Node.parent : Node σ α → Option (Node σ α)
  | .mk _ p _ _ _ => p

def Node.action : Node σ α → Option α
  | .mk _ _ a _ _ => a

def Node.path_cost : Node σ α → ℚ
  | .mk _ _ _ c _ => c

def Node.depth : Node σ α → ℕ
  | .mk _ _ _ _ d => d

/-- `Node(problem.initial)`: the root node, with the constructor's default
parent/action/path_cost/depth. -/
def Node.root (s : σ) : Node σ α := .mk s Option.none Option.none 0 0

/-- Modelled from the spec: `Node.path` is not under `src/`.  Per the spec,
path reconstruction walks parent references to the root and reverses, so the
list runs root-first and ends at this node. -/
def Node.path : Node σ α → List (Node σ α)
  | .mk s Option.none a c d => [.mk s Option.none a c d]
  | .mk s (some p) a c d => p.path ++ [.mk s (some p) a c d]

/-- Modelled from the spec: `Node.__eq__` is not under `src/`.  Per the spec,
two nodes are equal iff their states are equal; path history is irrelevant
to identity. -/
def node_eq [DecidableEq σ] (a b : Node σ α) : Bool :=
  decide (a.state = b.state)

/-- Modelled from the spec: `Node.__hash__` is not under `src/`.  Per the
spec, the hash is determined by the state alone; `hashState` stands for the
hash function of the opaque state type. -/
def node_hash (hashState : σ → ℕ) (n : Node σ α) : ℕ :=
  hashState n.state

/-- The Problem capability contract (spec §3).  The concrete class is not
under `src/`; the algorithms consume exactly these capabilities. -/
structure Problem (σ : Type) (α : Type) where
  initial : σ
  actions : σ → List α
  result : σ → α → σ
  goal_test : σ → Bool
  path_cost : ℚ → σ → α → σ → ℚ
  value : σ → ℚ
  h : Node σ α → ℚ

/-- Modelled from the spec: `Node.expand` / `Node.child_node` are not under
`src/`.  Per the spec (§3 lifecycle, glossary "Expand"): one child per legal
action, with state `result(s, a)`, parent this node, accumulated
`path_cost`, and depth `parent.depth + 1`. -/
def Node.expand (n : Node σ α) (p : Problem σ α) : List (Node σ α) :=
  (p.actions n.state).map fun a =>
    let s1 := p.result n.state a
    Node.mk s1 (some n) (some a) (p.path_cost n.path_cost n.state a s1)
      (n.depth + 1)

/-! ## Depth-limited and iterative deepening search
(`src/core/search_algorithms/uninformed.py`, `depth_limited_search`,
`iterative_deepening_search`).

The Python `recursive_dls` returns one of: `None`, the string `'cutoff'`, or
a tuple `(r, visited, len(node.path()))` where at the goal `r` is the goal
node and at an inner frame `r` is the child's whole tuple (the code wraps
the child's result again).  `DLSRes` is that value space. -/

inductive DLSRes (σ : Type) (α : Type) : Type where
  | none
  | cutoff
  | tupNode (n : Node σ α) (visited : ℕ) (plen : ℕ)
  | tupNested (r : DLSRes σ α) (visited : ℕ) (plen : ℕ)

mutual

/-- `recursive_dls(node, problem, limit, visited)` from
`uninformed.py:100-114`. -/
def recursive_dls (p : Problem σ α) (node : Node σ α) (limit : ℕ)
    (visited : ℕ) : DLSRes σ α :=
  if p.goal_test node.state then .tupNode node visited node.path.length
  else
    match limit with
    | 0 => .cutoff
    | l + 1 => dlsLoop p node (node.expand p) l visited false
termination_by (2 * limit + 1, 0)

/-- The `for child in node.expand(problem)` loop of `recursive_dls`, with
its `cutoff_occurred` flag; children are searched with limit `l`
(`limit - 1`) and counter `visited + 1`. -/
def dlsLoop (p : Problem σ α) (node : Node σ α) (children : List (Node σ α))
    (l : ℕ) (visited : ℕ) (cutoffOccurred : Bool) : DLSRes σ α :=
  match children with
  | [] => if cutoffOccurred then .cutoff else .none
  | c :: rest =>
    match recursive_dls p c l (visited + 1) with
    | .cutoff => dlsLoop p node rest l visited true
    | .none => dlsLoop p node rest l visited cutoffOccurred
    | r => .tupNested r visited node.path.length
termination_by (2 * l + 2, children.length)

end

/-- `depth_limited_search(problem, limit)` (`uninformed.py:98-117`). -/
def depth_limited_search (p : Problem σ α) (limit : ℕ) : DLSRes σ α :=
  recursive_dls p (Node.root p.initial) limit 0

/-- The `for depth in range(sys.maxsize)` loop of
`iterative_deepening_search`; falling off the loop is Python's implicit
`return None`. -/
def idsLoop (p : Problem σ α) : ℕ → ℕ → DLSRes σ α
  | 0, _ => .none
  | fuel + 1, depth =>
    match depth_limited_search p depth with
    | .cutoff => idsLoop p fuel (depth + 1)
    | r => r

/-- `iterative_deepening_search(problem)` (`uninformed.py:119-124`);
`maxsize` stands for `sys.maxsize`. -/
def iterative_deepening_search (p : Problem σ α) (maxsize : ℕ) : DLSRes σ α :=
  idsLoop p maxsize 0

/-- The search space below `node` is exhausted strictly before depth
`limit`: the node is not a goal, the limit is not yet zero, and every
child's subtree is itself exhausted within `limit - 1`.  This is the
"search space exhausted with no cutoff" situation of the spec. -/
def space_exhausted (p : Problem σ α) (node : Node σ α) : ℕ → Bool
  | 0 => false
  | l + 1 =>
    !p.goal_test node.state && (node.expand p).all fun c =>
      space_exhausted p c l

/-- The innermost goal node of a success result, if any. -/
def successNode : DLSRes σ α → Option (Node σ α)
  | .tupNode n _ _ => some n
  | .tupNested r _ _ => successNode r
  | .none => Option.none
  | .cutoff => Option.none

/-- A success result: some innermost node is present and passes the goal
test. -/
def DLSSuccess (p : Problem σ α) (r : DLSRes σ α) : Prop :=
  ∃ m, successNode r = some m ∧ p.goal_test m.state = true

/-! ## Tree breadth-first and depth-first search
(`src/core/search_algorithms/uninformed.py`, `breadth_first_tree_search`
lines 9-25, `depth_first_tree_search` lines 27-48).

Both functions return either a bare node or Python `None`; `PyVal` is the
value space of such returns, with a `triple` constructor so that the claim
that they return `(node, visited, pathLength)` triples can be stated. -/

inductive PyVal (σ : Type) (α : Type) : Type where
  | none
  | node (n : Node σ α)
  | triple (n : Option (Node σ α)) (visited : ℕ) (plen : ℕ)

/-- Discriminators for `PyVal` results (`Option.none` outside = fuel ran
out). -/
def isPyNone : Option (PyVal σ α) → Bool
  | some .none => true
  | _ => false

def isBareNode : Option (PyVal σ α) → Bool
  | some (.node _) => true
  | _ => false

def isTriple : Option (PyVal σ α) → Bool
  | some (.triple _ _ _) => true
  | _ => false

/-- The `while frontier` loop of `breadth_first_tree_search`
(`uninformed.py:15-24`): FIFO frontier, pop from the left, count the pop,
goal-test, return the bare node on success, otherwise extend the frontier
with the expansion. -/
def bftsLoop (p : Problem σ α) :
    ℕ → List (Node σ α) → ℕ → Option (PyVal σ α)
  | 0, _, _ => Option.none
  | _ + 1, [], _ => some .none
  | fuel + 1, n :: rest, nofvisited =>
    if p.goal_test n.state then some (.node n)
    else bftsLoop p fuel (rest ++ n.expand p) (nofvisited + 1)

/-- `breadth_first_tree_search(problem)` (`uninformed.py:9-25`). -/
def breadth_first_tree_search (p : Problem σ α) (fuel : ℕ) :
    Option (PyVal σ α) :=
  bftsLoop p fuel [Node.root p.initial] 0

/-- Python `node in visited` with `Node.__eq__`, i.e. membership by state
equality. -/
def nodeMem [DecidableEq σ] (n : Node σ α) (l : List (Node σ α)) : Bool :=
  l.any fun m => node_eq m n

/-- The `while frontier` loop of `depth_first_tree_search`
(`uninformed.py:32-47`).  The Python frontier is a stack (`list.pop()`
takes the rightmost element; `extend` appends on the right); we keep the
frontier reversed so the popped element is the head and an expansion is
pushed as `children.reverse ++ rest`.  A popped node whose state is already
in `visited` is skipped (`continue`) without being goal-tested or
expanded. -/
def dftsLoop [DecidableEq σ] (p : Problem σ α) :
    ℕ → List (Node σ α) → List (Node σ α) → ℕ → Option (PyVal σ α)
  | 0, _, _, _ => Option.none
  | _ + 1, [], _, _ => some .none
  | fuel + 1, n :: rest, visited, nofvisited =>
    if nodeMem n visited then dftsLoop p fuel rest visited nofvisited
    else if p.goal_test n.state then some (.node n)
    else dftsLoop p fuel ((n.expand p).reverse ++ rest) (visited ++ [n])
      (nofvisited + 1)

/-- `depth_first_tree_search(problem)` (`uninformed.py:27-48`). -/
def depth_first_tree_search [DecidableEq σ] (p : Problem σ α) (fuel : ℕ) :
    Option (PyVal σ α) :=
  dftsLoop p fuel [Node.root p.initial] [] 0

/-- The behaviour claim C7 ascribes to `depth_first_tree_search`: no
visited list at all, every popped node is goal-tested and expanded
regardless of whether its state was reached before.  Written from the
claim's words, for comparison with the embedding of the code. -/
def dftsSpecLoop (p : Problem σ α) :
    ℕ → List (Node σ α) → ℕ → Option (PyVal σ α)
  | 0, _, _ => Option.none
  | _ + 1, [], _ => some .none
  | fuel + 1, n :: rest, nofvisited =>
    if p.goal_test n.state then some (.node n)
    else dftsSpecLoop p fuel ((n.expand p).reverse ++ rest) (nofvisited + 1)

def depth_first_tree_search_spec (p : Problem σ α) (fuel : ℕ) :
    Option (PyVal σ α) :=
  dftsSpecLoop p fuel [Node.root p.initial] 0

/-- A two-state cyclic problem with no goal: state 0 and state 1, one
action each leading to the other state.  Tree DFS terminates on it only
because of its visited list; a search that revisits states runs forever. -/
def cycP : Problem ℕ Unit where
  initial := 0
  actions := fun s => if s ≤ 1 then [()] else []
  result := fun s _ => 1 - s
  goal_test := fun _ => false
  path_cost := fun c _ _ _ => c
  value := fun _ => 0
  h := fun _ => 0

/-- A one-state problem whose initial state is a goal: the first pop of
tree BFS succeeds immediately. -/
def goalP : Problem ℕ Unit where
  initial := 0
  actions := fun _ => []
  result := fun s _ => s
  goal_test := fun _ => true
  path_cost := fun c _ _ _ => c
  value := fun _ => 0
  h := fun _ => 0

/-! ## Best-first graph search
(`src/core/search_algorithms/informed.py`, `best_first_graph_search`,
lines 16-72).

The frontier is `utils.PriorityQueue('min', f)`, which is not under `src/`;
it is modelled from the spec (§3 Frontier): a priority structure ordered by
the score function with ties broken by insertion order, supporting append,
pop-next, membership by state, score lookup and deletion of the stored
copy.  We represent it as the list of stored nodes in insertion order; a
pop removes the first node of minimal score.  `memoize(f, 'f')` caches a
pure function on each node object; since the embedding is pure, the
memoized `f` coincides with `f` itself. -/

/-- Remove the first element satisfying `pred`, returning it and the rest. -/
def extractFirst (pred : β → Bool) : List β → Option (β × List β)
  | [] => Option.none
  | x :: xs =>
    if pred x then some (x, xs)
    else (extractFirst pred xs).map fun yr => (yr.1, x :: yr.2)

/-- Pop the first node of minimal `f` from the frontier. -/
def pqPop (f : Node σ α → ℚ) (l : List (Node σ α)) :
    Option (Node σ α × List (Node σ α)) :=
  match l with
  | [] => Option.none
  | x :: xs =>
    let m := (xs.map f).foldl min (f x)
    extractFirst (fun n => decide (f n = m)) (x :: xs)

/-- `child in frontier`: membership by node equality, i.e. state equality. -/
def frontMem [DecidableEq σ] (l : List (Node σ α)) (c : Node σ α) : Bool :=
  l.any fun m => node_eq m c

/-- `frontier[child]`: the memoized score of the stored copy (the first
stored node equal to `child`). -/
def frontGetF [DecidableEq σ] (f : Node σ α → ℚ) (l : List (Node σ α))
    (c : Node σ α) : Option ℚ :=
  (l.find? fun m => node_eq m c).map f

/-- `del frontier[child]`: remove the stored copy. -/
def frontDel [DecidableEq σ] (l : List (Node σ α)) (c : Node σ α) :
    List (Node σ α) :=
  l.eraseP fun m => node_eq m c

/-- `explored.add(state)` on the explored set of states. -/
def setAdd [DecidableEq σ] (s : σ) (l : List σ) : List σ :=
  if s ∈ l then l else s :: l

/-- The per-child body of the expansion loop in `best_first_graph_search`
(`informed.py:61-68`): append a child whose state is neither explored nor
in the frontier; replace the stored copy of a child already in the frontier
exactly when the child's score is strictly lower. -/
def bfgsChild [DecidableEq σ] (f : Node σ α → ℚ) (explored : List σ)
    (frontier : List (Node σ α)) (child : Node σ α) : List (Node σ α) :=
  if child.state ∉ explored ∧ frontMem frontier child = false then
    frontier ++ [child]
  else if frontMem frontier child = true then
    match frontGetF f frontier child with
    | some storedF =>
      if f child < storedF then frontDel frontier child ++ [child]
      else frontier
    | Option.none => frontier
  else frontier

/-- One iteration of the `while frontier` loop of
`best_first_graph_search` (`informed.py:50-68`). -/
inductive BFGSStep (σ : Type) (α : Type) : Type where
  | found (n : Node σ α) (visited : ℕ) (plen : ℕ)
  | next (frontier : List (Node σ α)) (explored : List σ) (visited : ℕ)
  | emptyFrontier

def bfgsStep [DecidableEq σ] (p : Problem σ α) (f : Node σ α → ℚ)
    (frontier : List (Node σ α)) (explored : List σ) (visited : ℕ) :
    BFGSStep σ α :=
  match pqPop f frontier with
  | Option.none => .emptyFrontier
  | some (node, rest) =>
    if p.goal_test node.state then .found node visited node.path.length
    else
      let explored2 := setAdd node.state explored
      .next ((node.expand p).foldl (bfgsChild f explored2) rest) explored2
        (visited + 1)

def bfgsLoop [DecidableEq σ] (p : Problem σ α) (f : Node σ α → ℚ) :
    ℕ → List (Node σ α) → List σ → ℕ →
      Option (Option (Node σ α) × ℕ × ℕ)
  | 0, _, _, _ => Option.none
  | fuel + 1, fr, ex, v =>
    match bfgsStep p f fr ex v with
    | .emptyFrontier => some (Option.none, v, 0)
    | .found n vis plen => some (some n, vis, plen)
    | .next fr2 ex2 v2 => bfgsLoop p f fuel fr2 ex2 v2

/-- `best_first_graph_search(problem, f)` (`informed.py:16-72`): returns the
triple `(goal node or None, nodes_visited, path length)`. -/
def best_first_graph_search [DecidableEq σ] (p : Problem σ α)
    (f : Node σ α → ℚ) (fuel : ℕ) : Option (Option (Node σ α) × ℕ × ℕ) :=
  bfgsLoop p f fuel [Node.root p.initial] [] 0

/-! ## Recursive best-first search
(`src/core/search_algorithms/informed.py`, `recursive_best_first_search`,
lines 161-225).

Node `f` values are floats mutated on the node objects; we carry them
explicitly as the second component of `(node, f)` pairs, with
`WithTop ℚ` for `float('inf')`.  `h = memoize(h or problem.h, 'h')` caches
a pure function, so the memoized `h` coincides with `h`.  Both the
recursion and the `while True` loop consume fuel. -/

/-- `for s in successors: s.f = max(s.path_cost + h(s), node.f)`
(`informed.py:204-205`). -/
def rbfsInit (p : Problem σ α) (h : Node σ α → ℚ) (node : Node σ α)
    (nodeF : WithTop ℚ) : List (Node σ α × WithTop ℚ) :=
  (node.expand p).map fun s =>
    (s, max ((s.path_cost + h s : ℚ) : WithTop ℚ) nodeF)

/-- `alternative = successors[1].f if len(successors) > 1 else infinity`,
applied to the tail of the sorted successor list. -/
def altOf : List (Node σ α × WithTop ℚ) → WithTop ℚ
  | [] => ⊤
  | a :: _ => a.2

/-- Stable insertion into a list sorted by ascending `f`; an element with
an equal `f` goes after the existing ones, matching Python's stable
`list.sort`. -/
def insertByF (x : Node σ α × WithTop ℚ) :
    List (Node σ α × WithTop ℚ) → List (Node σ α × WithTop ℚ)
  | [] => [x]
  | y :: ys => if x.2 < y.2 then x :: y :: ys else y :: insertByF x ys

/-- `successors.sort(key=lambda x: x.f)` (`informed.py:208`). -/
def sortByF (l : List (Node σ α × WithTop ℚ)) :
    List (Node σ α × WithTop ℚ) :=
  l.foldr insertByF []

mutual

/-- The inner `RBFS(problem, node, flimit)` of
`recursive_best_first_search` (`informed.py:183-219`); `nodeF` is the
node's current `f` value. -/
def RBFSrec (p : Problem σ α) (h : Node σ α → ℚ) (fuel : ℕ)
    (node : Node σ α) (nodeF : WithTop ℚ) (flimit : WithTop ℚ) :
    Option (Option (Node σ α) × WithTop ℚ) :=
  match fuel with
  | 0 => Option.none
  | fuel2 + 1 =>
    if p.goal_test node.state then some (some node, ((0 : ℚ) : WithTop ℚ))
    else
      match rbfsInit p h node nodeF with
      | [] => some (Option.none, ⊤)
      | s :: ss => rbfsLoop p h fuel2 (s :: ss) flimit
termination_by (fuel, 0)

/-- The `while True` loop of `RBFS` (`informed.py:207-218`): re-sort the
successors and take one step. -/
def rbfsLoop (p : Problem σ α) (h : Node σ α → ℚ) (fuel : ℕ)
    (succs : List (Node σ α × WithTop ℚ)) (flimit : WithTop ℚ) :
    Option (Option (Node σ α) × WithTop ℚ) :=
  match fuel with
  | 0 => Option.none
  | fuel2 + 1 => rbfsStep p h fuel2 (sortByF succs) flimit
termination_by (fuel, 1)

/-- One iteration of the `while True` loop of `RBFS`
(`informed.py:209-218`), on the already-sorted successor list: fail with
the best `f` as the new bound when it exceeds the limit, otherwise recurse
into the best successor with limit `min(flimit, alternative)` where
`alternative` is the second-best `f`, store the reported `f` back on the
best successor, and loop unless a result was found. -/
def rbfsStep (p : Problem σ α) (h : Node σ α → ℚ) (fuel2 : ℕ)
    (sorted : List (Node σ α × WithTop ℚ)) (flimit : WithTop ℚ) :
    Option (Option (Node σ α) × WithTop ℚ) :=
  match sorted with
  | [] => Option.none
  | best :: restSorted =>
    if flimit < best.2 then some (Option.none, best.2)
    else
      match RBFSrec p h fuel2 best.1 best.2
          (min flimit (altOf restSorted)) with
      | Option.none => Option.none
      | some (result, newF) =>
        match result with
        | some n => some (some n, newF)
        | Option.none =>
          rbfsLoop p h fuel2 ((best.1, newF) :: restSorted) flimit
termination_by (fuel2, 2)

end

/-- `recursive_best_first_search(problem, h)` (`informed.py:161-225`):
returns only the goal node or None, with no counters. -/
def recursive_best_first_search (p : Problem σ α) (h : Node σ α → ℚ)
    (fuel : ℕ) : Option (Option (Node σ α)) :=
  match RBFSrec p h fuel (Node.root p.initial)
      ((h (Node.root p.initial) : ℚ) : WithTop ℚ) ⊤ with
  | Option.none => Option.none
  | some (result, _) => some result

/-! ## Bidirectional search
(`src/core/search_algorithms/bidirectional.py`, `bidirectional_search`,
lines 8-81).

Here the problem exposes successor states directly (`problem.actions(n)`
iterates over neighbour states `c`), a state-based heuristic `h`, a
`path_cost` that is always called with action `None`, and
`find_min_edge()`.  Cost maps `g_f`/`gg_b` are Python dicts, modelled as
association lists in insertion order; a missing-key lookup (a Python
`KeyError`) or a `list.remove` of an absent element (a `ValueError`)
surfaces as the distinguished `error` outcome, separate from every normal
return. -/

structure BiProblem (σ : Type) where
  initial : σ
  goal : σ
  actions : σ → List σ
  path_cost : ℚ → σ → σ → ℚ
  h : σ → ℚ
  find_min_edge : ℚ

/-- Dict lookup in an association list (first binding wins). -/
def dlookup [DecidableEq κ] (l : List (κ × β)) (k : κ) : Option β :=
  (l.find? fun kv => decide (kv.1 = k)).map fun kv => kv.2

/-- Dict assignment: overwrite the existing binding in place, else append. -/
def dset [DecidableEq κ] (l : List (κ × β)) (k : κ) (v : β) :
    List (κ × β) :=
  if (dlookup l k).isSome then
    l.map fun kv => if kv.1 = k then (k, v) else kv
  else l ++ [(k, v)]

/-- The mutable state of `bidirectional_search`'s main loop. -/
structure BiState (σ : Type) where
  g_f : List (σ × ℚ)
  gg_b : List (σ × ℚ)
  open_f : List σ
  open_b : List σ
  closed_f : List σ
  closed_b : List σ
  U : WithTop ℚ

/-- The `for n in open_dir` accumulation inside `find_min`
(`bidirectional.py:41-46`): minimum priority `max(f, 2g)` and minimum `f`,
both starting at infinity; `Option.none` = a `g` lookup failed. -/
def findMinLoop (p : BiProblem σ) [DecidableEq σ] (g : List (σ × ℚ)) :
    List σ → WithTop ℚ → WithTop ℚ → Option (WithTop ℚ × WithTop ℚ)
  | [], m, mf => some (m, mf)
  | n :: rest, m, mf =>
    match dlookup g n with
    | Option.none => Option.none
    | some gn =>
      let f := gn + p.h n
      let pr := max f (2 * gn)
      findMinLoop p g rest (min m ((pr : ℚ) : WithTop ℚ))
        (min mf ((f : ℚ) : WithTop ℚ))

/-- `min(g.values())` (`bidirectional.py:48`); `Option.none` = empty dict
(a Python `ValueError`). -/
def minValues : List (σ × ℚ) → Option ℚ
  | [] => Option.none
  | kv :: rest => some (rest.foldl (fun acc x => min acc x.2) kv.2)

/-- `find_min(open_dir, g)` (`bidirectional.py:39-48`): minimum priority,
minimum f and minimum of all g values. -/
def findMin (p : BiProblem σ) [DecidableEq σ] (openDir : List σ)
    (g : List (σ × ℚ)) : Option (WithTop ℚ × WithTop ℚ × ℚ) :=
  match findMinLoop p g openDir ⊤ ⊤, minValues g with
  | some (m, mf), some gm => some (m, mf, gm)
  | _, _ => Option.none

/-- `find_key(pr_min, open_dir, g)` (`bidirectional.py:51-62`): the state
in `open_dir` whose priority equals `pr_min`, of minimal `g`;
`Option.none` = no such key (Python falls back to the sentinel `-1`,
which the caller then fails to remove) or a failed lookup. -/
def findKeyLoop (p : BiProblem σ) [DecidableEq σ] (prMin : WithTop ℚ)
    (g : List (σ × ℚ)) :
    List σ → WithTop ℚ → Option σ → Option (Option σ)
  | [], _, state => some state
  | n :: rest, m, state =>
    match dlookup g n with
    | Option.none => Option.none
    | some gn =>
      let pr := max (gn + p.h n) (2 * gn)
      if ((pr : ℚ) : WithTop ℚ) = prMin ∧ ((gn : ℚ) : WithTop ℚ) < m then
        findKeyLoop p prMin g rest ((gn : ℚ) : WithTop ℚ) (some n)
      else findKeyLoop p prMin g rest m state

def findKey (p : BiProblem σ) [DecidableEq σ] (prMin : WithTop ℚ)
    (openDir : List σ) (g : List (σ × ℚ)) : Option (Option σ) :=
  findKeyLoop p prMin g openDir ⊤ Option.none

mutual

/-- The `for c in problem.actions(n)` loop of `extend`
(`bidirectional.py:21-34`), threading `(U, open_dir, g_dir)`;
`Option.none` = a lookup or removal failed. -/
def extendLoop (p : BiProblem σ) [DecidableEq σ] (n : σ) (gn : ℚ)
    (closedDir : List σ) (openOther : List σ) (gOther : List (σ × ℚ))
    (children : List σ) (U : WithTop ℚ) (openDir : List σ)
    (gDir : List (σ × ℚ)) : Option (WithTop ℚ × List σ × List (σ × ℚ)) :=
  match children with
  | [] => some (U, openDir, gDir)
  | c :: cs =>
    if c ∈ openDir ∨ c ∈ closedDir then
      match dlookup gDir c with
      | Option.none => Option.none
      | some gc =>
        if gc ≤ p.path_cost gn n c then
          extendLoop p n gn closedDir openOther gOther cs U openDir gDir
        else
          if c ∈ openDir then
            extendAdd p n gn closedDir openOther gOther c cs U
              (openDir.eraseP fun y => decide (y = c)) gDir
          else Option.none
    else extendAdd p n gn closedDir openOther gOther c cs U openDir gDir
termination_by 2 * children.length + 1

/-- The tail of the loop body after the membership branch: write the new
`g`, append to the open list, and update `U` when `c` is open in the other
direction (`bidirectional.py:29-34`). -/
def extendAdd (p : BiProblem σ) [DecidableEq σ] (n : σ) (gn : ℚ)
    (closedDir : List σ) (openOther : List σ) (gOther : List (σ × ℚ))
    (c : σ) (cs : List σ) (U : WithTop ℚ) (openDir : List σ)
    (gDir : List (σ × ℚ)) : Option (WithTop ℚ × List σ × List (σ × ℚ)) :=
  let gc2 := p.path_cost gn n c
  let gDir2 := dset gDir c gc2
  let openDir2 := openDir ++ [c]
  let U2 :=
    if c ∈ openOther then
      match dlookup gOther c with
      | some go => min U ((gc2 + go : ℚ) : WithTop ℚ)
      | Option.none => U
    else U
  extendLoop p n gn closedDir openOther gOther cs U2 openDir2 gDir2
termination_by 2 * cs.length + 2

end

/-- `extend(U, open_dir, open_other, g_dir, g_other, closed_dir)`
(`bidirectional.py:17-36`). -/
def extend (p : BiProblem σ) [DecidableEq σ] (C : WithTop ℚ)
    (U : WithTop ℚ) (openDir : List σ) (openOther : List σ)
    (gDir gOther : List (σ × ℚ)) (closedDir : List σ) :
    Option (WithTop ℚ × List σ × List σ × List (σ × ℚ)) :=
  match findKey p C openDir gDir with
  | Option.none => Option.none
  | some Option.none => Option.none
  | some (some n) =>
    match dlookup gDir n with
    | Option.none => Option.none
    | some gn =>
      let openDir2 := openDir.eraseP fun y => decide (y = n)
      let closedDir2 := closedDir ++ [n]
      match extendLoop p n gn closedDir2 openOther gOther (p.actions n) U
          openDir2 gDir with
      | Option.none => Option.none
      | some (U2, openDir3, gDir3) =>
        some (U2, openDir3, closedDir2, gDir3)

/-- The outcome of one iteration of the `while open_f and open_b` loop. -/
inductive BiIter (σ : Type) : Type where
  | ret (c : WithTop ℚ)
  | next (st : BiState σ)
  | error

/-- One iteration of `bidirectional_search`'s main loop
(`bidirectional.py:65-81`): exiting the `while` guard returns infinity;
otherwise compute the two `find_min`s, let `C` be the smaller minimum
priority, return `U` when
`U <= max(C, f_min_f, f_min_b, g_min_f + g_min_b + e)`, else extend the
direction achieving `C`. -/
def bidirStep (p : BiProblem σ) [DecidableEq σ] (st : BiState σ) :
    BiIter σ :=
  if st.open_f = [] ∨ st.open_b = [] then .ret ⊤
  else
    match findMin p st.open_f st.g_f, findMin p st.open_b st.gg_b with
    | some (prF, fF, gF), some (prB, fB, gB) =>
      let C := min prF prB
      if st.U ≤ max (max (max C fF) fB)
          ((gF + gB + p.find_min_edge : ℚ) : WithTop ℚ) then .ret st.U
      else if C = prF then
        match extend p C st.U st.open_f st.open_b st.g_f st.gg_b
            st.closed_f with
        | Option.none => .error
        | some (U2, openF2, closedF2, gF2) =>
          .next { st with U := U2, open_f := openF2, closed_f := closedF2,
                          g_f := gF2 }
      else
        match extend p C st.U st.open_b st.open_f st.gg_b st.g_f
            st.closed_b with
        | Option.none => .error
        | some (U2, openB2, closedB2, gB2) =>
          .next { st with U := U2, open_b := openB2, closed_b := closedB2,
                          gg_b := gB2 }
    | _, _ => .error

/-- The outcome of running the loop with fuel. -/
inductive BiOutcome (σ : Type) : Type where
  | val (c : WithTop ℚ)
  | error
  | fuelOut

def bidirLoop (p : BiProblem σ) [DecidableEq σ] :
    ℕ → BiState σ → BiOutcome σ
  | 0, _ => .fuelOut
  | fuel + 1, st =>
    match bidirStep p st with
    | .ret c => .val c
    | .error => .error
    | .next st2 => bidirLoop p fuel st2

/-- `bidirectional_search(problem)` (`bidirectional.py:8-81`). -/
def bidirectional_search (p : BiProblem σ) [DecidableEq σ] (fuel : ℕ) :
    BiOutcome σ :=
  bidirLoop p fuel
    { g_f := [(p.initial, 0)], gg_b := [(p.goal, 0)],
      open_f := [p.initial], open_b := [p.goal],
      closed_f := [], closed_b := [], U := ⊤ }

/-- A trivial bidirectional problem for witnesses. -/
def biTestP : BiProblem ℕ where
  initial := 0
  goal := 1
  actions := fun _ => []
  path_cost := fun g _ _ => g
  h := fun _ => 0
  find_min_edge := 0

/-- A loop state whose forward open list is empty. -/
def biTestSt : BiState ℕ where
  g_f := [(0, 0)]
  gg_b := [(1, 0)]
  open_f := []
  open_b := [1]
  closed_f := []
  closed_b := []
  U := ⊤

/-! ## Local search
(`src/core/search_algorithms/local.py`, `hill_climbing_sideway` lines
44-71, `exp_schedule` lines 73-75, `simulated_annealing` lines 78-95).

`utils.argmax_random_tie` and `utils.probability` and Python's
`random.choice` are not under `src/`; per the spec, tie-breaking among
equal-best neighbours is random.  Randomness is supplied as oracles: an
index stream for choices and a boolean stream for probabilistic
acceptance, with theorems quantifying over the streams. -/

/-- Modelled from the spec: `argmax_random_tie(seq, key)` picks a random
element among those attaining the maximal key; `idx` is the random index
into the maximal candidates. -/
def argmax_tie (key : β → ℚ) (idx : ℕ) : List β → Option β
  | [] => Option.none
  | x :: xs =>
    let m := (xs.map key).foldl max (key x)
    let cands := (x :: xs).filter fun y => decide (key y = m)
    cands[idx % cands.length]?

/-- The `while True` loop of `hill_climbing_sideway` (`local.py:49-70`),
carrying the sideways-move counter `movements`, the visited counter, and
the iteration index `t` feeding the tie-break oracle.  Note the counter is
never reset on a strictly improving move. -/
def hcSidewayLoop (p : Problem σ α) (oracle : ℕ → ℕ) (bound : ℕ) :
    ℕ → Node σ α → ℕ → ℕ → ℕ → Option (Node σ α × ℕ × ℕ)
  | 0, _, _, _, _ => Option.none
  | fuel + 1, current, movements, visited, t =>
    match current.expand p with
    | [] => some (current, visited, current.path.length)
    | nb :: nbs =>
      match argmax_tie (fun nd => p.value nd.state) (oracle t) (nb :: nbs)
      with
      | Option.none => some (current, visited, current.path.length)
      | some neighbor =>
        if p.value neighbor.state < p.value current.state then
          some (current, visited, current.path.length)
        else if p.value neighbor.state = p.value current.state ∧
            movements = bound then
          some (current, visited, current.path.length)
        else if p.value neighbor.state = p.value current.state then
          hcSidewayLoop p oracle bound fuel neighbor (movements + 1)
            (visited + 1) (t + 1)
        else
          hcSidewayLoop p oracle bound fuel neighbor movements
            (visited + 1) (t + 1)

/-- `hill_climbing_sideway(problem, bound)` (`local.py:44-71`). -/
def hill_climbing_sideway (p : Problem σ α) (oracle : ℕ → ℕ) (bound : ℕ)
    (fuel : ℕ) : Option (Node σ α × ℕ × ℕ) :=
  hcSidewayLoop p oracle bound fuel (Node.root p.initial) 0 0 0

/-- The behaviour claim C9 ascribes to `hill_climbing_sideway`: the
sideways allowance applies to a consecutive run, so a strictly improving
move resets the counter to zero.  Written from the claim's words, for
comparison with the embedding of the code. -/
def hcSidewaySpecLoop (p : Problem σ α) (oracle : ℕ → ℕ) (bound : ℕ) :
    ℕ → Node σ α → ℕ → ℕ → ℕ → Option (Node σ α × ℕ × ℕ)
  | 0, _, _, _, _ => Option.none
  | fuel + 1, current, movements, visited, t =>
    match current.expand p with
    | [] => some (current, visited, current.path.length)
    | nb :: nbs =>
      match argmax_tie (fun nd => p.value nd.state) (oracle t) (nb :: nbs)
      with
      | Option.none => some (current, visited, current.path.length)
      | some neighbor =>
        if p.value neighbor.state < p.value current.state then
          some (current, visited, current.path.length)
        else if p.value neighbor.state = p.value current.state ∧
            movements = bound then
          some (current, visited, current.path.length)
        else if p.value neighbor.state = p.value current.state then
          hcSidewaySpecLoop p oracle bound fuel neighbor (movements + 1)
            (visited + 1) (t + 1)
        else
          hcSidewaySpecLoop p oracle bound fuel neighbor 0
            (visited + 1) (t + 1)

def hill_climbing_sideway_spec (p : Problem σ α) (oracle : ℕ → ℕ)
    (bound : ℕ) (fuel : ℕ) : Option (Node σ α × ℕ × ℕ) :=
  hcSidewaySpecLoop p oracle bound fuel (Node.root p.initial) 0 0 0

/-- The state of the returned node, for comparing runs. -/
def hcResultState : Option (Node σ α × ℕ × ℕ) → Option σ :=
  Option.map fun r => r.1.state

/-- A four-state chain 0-1-2-3 with values 0, 0, 1, 1: a sideways move,
then an improving move, then another sideways move.  Each state has at
most one neighbour, so tie-breaking is immaterial. -/
def chainP : Problem ℕ Unit where
  initial := 0
  actions := fun s => if s < 3 then [()] else []
  result := fun s _ => s + 1
  goal_test := fun _ => false
  path_cost := fun c _ _ _ => c
  value := fun s => if s ≤ 1 then 0 else 1
  h := fun _ => 0

/-- `exp_schedule(k, lam, limit)` (`local.py:73-75`): `e` stands for the
transcendental `math.exp`, which the schedule only feeds positive
arguments through; the claims about the schedule depend only on the
`t >= limit` branch, so the theorems hold for every `e`. -/
def exp_schedule (e : ℚ → ℚ) (k lam : ℚ) (limit : ℕ) : ℕ → ℚ :=
  fun t => if t < limit then k * e (-(lam * t)) else 0

/-- The `for t in range(sys.maxsize)` loop of `simulated_annealing`
(`local.py:82-94`).  `choiceOracle` models `random.choice` (an index into
the neighbour list), `acceptOracle` models
`probability(math.exp(delta_e / T))`; a positive `delta_e` accepts
deterministically.  Running out of fuel is Python's implicit `return
None` after `sys.maxsize` iterations. -/
def saLoop (p : Problem σ α) (schedule : ℕ → ℚ) (choiceOracle : ℕ → ℕ)
    (acceptOracle : ℕ → Bool) :
    ℕ → ℕ → Node σ α → ℕ → Option (Node σ α × ℕ × ℕ)
  | 0, _, _, _ => Option.none
  | fuel + 1, t, current, visited =>
    if schedule t = 0 then some (current, visited, current.path.length)
    else
      match current.expand p with
      | [] => some (current, visited, current.path.length)
      | nb :: nbs =>
        match (nb :: nbs)[choiceOracle t % (nb :: nbs).length]? with
        | Option.none => Option.none
        | some nextChoice =>
          if 0 < p.value nextChoice.state - p.value current.state ∨
              acceptOracle t then
            saLoop p schedule choiceOracle acceptOracle fuel (t + 1)
              nextChoice (visited + 1)
          else
            saLoop p schedule choiceOracle acceptOracle fuel (t + 1)
              current visited

/-- `simulated_annealing(problem, schedule)` (`local.py:78-95`);
`maxsize` stands for `sys.maxsize`. -/
def simulated_annealing (p : Problem σ α) (schedule : ℕ → ℚ)
    (choiceOracle : ℕ → ℕ) (acceptOracle : ℕ → Bool) (maxsize : ℕ) :
    Option (Node σ α × ℕ × ℕ) :=
  saLoop p schedule choiceOracle acceptOracle maxsize 0
    (Node.root p.initial) 0

/-! ## Online DFS agent
(`src/core/search_algorithms/online.py`, `OnlineDFSAgent.__call__`,
lines 46-89).

The agent's mutable attributes become an explicit record threaded through
calls.  Python dicts preserve insertion order, so they are association
lists; `result` is keyed by `(state, action)` pairs where the action is
the stored `self.a`, which can be `None`.  The default `update_state` is
the identity, so the percept is the state. -/

structure DFSAgent (σ : Type) (α : Type) where
  s : Option σ
  a : Option α
  untried : List (σ × List α)
  unbacktracked : List (σ × List σ)
  result : List ((σ × Option α) × σ)

def DFSAgent.init : DFSAgent σ α :=
  ⟨Option.none, Option.none, [], [], []⟩

/-- The bookkeeping prefix of `__call__` (`online.py:66-74`): initialise
`untried[s1]` on first visit; record the transition from the previous
state when it is new, inserting the previous state at the front of
`unbacktracked[s1]`. -/
def dfsBook [DecidableEq σ] [DecidableEq α] (p : Problem σ α)
    (ag : DFSAgent σ α) (s1 : σ) : DFSAgent σ α :=
  let untried :=
    match dlookup ag.untried s1 with
    | Option.none => ag.untried ++ [(s1, p.actions s1)]
    | some _ => ag.untried
  match ag.s with
  | Option.none => { ag with untried := untried }
  | some s0 =>
    if dlookup ag.result (s0, ag.a) = some s1 then
      { ag with untried := untried }
    else
      { ag with untried := untried,
                result := dset ag.result (s0, ag.a) s1,
                unbacktracked := dset ag.unbacktracked s1
                  (s0 :: (dlookup ag.unbacktracked s1).getD []) }

/-- The decision suffix of `__call__` (`online.py:75-87`): pop the next
untried action, or backtrack — popping the front of `unbacktracked[s1]`
and replaying the first recorded action leading there (leaving `self.a`
stale when none is recorded) — or return no action when both lists are
empty. -/
def dfsDecide [DecidableEq σ] [DecidableEq α] (p : Problem σ α)
    (ag : DFSAgent σ α) (s1 : σ) : DFSAgent σ α × Option α :=
  match (dlookup ag.untried s1).getD [] with
  | [] =>
    match (dlookup ag.unbacktracked s1).getD [] with
    | [] => ({ ag with a := Option.none, s := some s1 }, Option.none)
    | back :: rest =>
      let a2 :=
        match ag.result.find? fun kv => decide (kv.2 = back) with
        | some kv => kv.1.2
        | Option.none => ag.a
      ({ ag with a := a2, s := some s1,
                 unbacktracked := dset ag.unbacktracked s1 rest }, a2)
  | act :: rest =>
    ({ ag with a := some act, s := some s1,
               untried := dset ag.untried s1 rest }, some act)

/-- `OnlineDFSAgent.__call__(percept)` (`online.py:46-89`). -/
def dfsCall [DecidableEq σ] [DecidableEq α] (p : Problem σ α)
    (ag : DFSAgent σ α) (percept : σ) : DFSAgent σ α × Option α :=
  if p.goal_test percept then
    ({ ag with a := Option.none, s := some percept }, Option.none)
  else dfsDecide p (dfsBook p ag percept) percept

/-- The agent after a sequence of calls from the initial agent state. -/
def dfsRunAgent [DecidableEq σ] [DecidableEq α] (p : Problem σ α)
    (percepts : List σ) : DFSAgent σ α :=
  percepts.foldl (fun ag s => (dfsCall p ag s).1) DFSAgent.init

/-- The agent's current untried list for state `s`: the stored list if
present, else what initialisation would install. -/
def untriedOf [DecidableEq σ] (p : Problem σ α) (ag : DFSAgent σ α)
    (s : σ) : List α :=
  (dlookup ag.untried s).getD (p.actions s)

/-- The call at `s1` takes the untried-pop branch: not a goal, and the
(initialised) untried list is nonempty. -/
def untriedTaken [DecidableEq σ] [DecidableEq α] (p : Problem σ α)
    (ag : DFSAgent σ α) (s1 : σ) : Bool :=
  !p.goal_test s1 && !(untriedOf p ag s1).isEmpty

/-- The problem of the C8 counterexample run: state 2 has the single
action 7, states 0 and 1 have none, and nothing is a goal. -/
def onlineP : Problem ℕ ℕ where
  initial := 0
  actions := fun s => if s = 2 then [7] else []
  result := fun s _ => s
  goal_test := fun _ => false
  path_cost := fun c _ _ _ => c
  value := fun _ => 0
  h := fun _ => 0
lemma dlsLoop_classify (p : Problem σ α) (l : ℕ)
    (IH : ∀ (c : Node σ α) (v : ℕ), recursive_dls p c l v = .none ∨
      recursive_dls p c l v = .cutoff ∨ DLSSuccess p (recursive_dls p c l v)) :
    ∀ (children : List (Node σ α)) (node : Node σ α) (v : ℕ) (flag : Bool),
      dlsLoop p node children l v flag = .none ∨
      dlsLoop p node children l v flag = .cutoff ∨
      DLSSuccess p (dlsLoop p node children l v flag) := by
  intro children
  induction children with
  | nil =>
    intro node v flag
    rw [dlsLoop]
    cases flag
    · exact Or.inl rfl
    · exact Or.inr (Or.inl rfl)
  | cons c rest ih =>
    intro node v flag
    rw [dlsLoop]
    rcases IH c (v + 1) with h | h | hs
    · rw [h]; exact ih node v flag
    · rw [h]; exact ih node v true
    · obtain ⟨m, hm, hg⟩ := hs
      cases hr : recursive_dls p c l (v + 1) with
      | none => rw [hr] at hm; exact absurd hm (by simp [successNode])
      | cutoff => rw [hr] at hm; exact absurd hm (by simp [successNode])
      | tupNode n vv pl =>
        rw [hr] at hm
        exact Or.inr (Or.inr ⟨m, by simpa [successNode] using hm, hg⟩)
      | tupNested r vv pl =>
        rw [hr] at hm
        exact Or.inr (Or.inr ⟨m, by simpa [successNode] using hm, hg⟩)

lemma rd_classify (p : Problem σ α) :
    ∀ (limit : ℕ) (n : Node σ α) (v : ℕ), recursive_dls p n limit v = .none ∨
      recursive_dls p n limit v = .cutoff ∨
      DLSSuccess p (recursive_dls p n limit v) := by
  intro limit
  induction limit with
  | zero =>
    intro n v
    rw [recursive_dls]
    by_cases h : p.goal_test n.state
    · simp only [h, if_true]
      exact Or.inr (Or.inr ⟨n, by simp [successNode], h⟩)
    · simp only [h, if_false]
      exact Or.inr (Or.inl rfl)
  | succ l ih =>
    intro n v
    rw [recursive_dls]
    by_cases h : p.goal_test n.state
    · simp only [h, if_true]
      exact Or.inr (Or.inr ⟨n, by simp [successNode], h⟩)
    · simp only [h, if_false]
      exact dlsLoop_classify p l ih (n.expand p) n v false

lemma dlsLoop_none_iff (p : Problem σ α) (l : ℕ) :
    ∀ (children : List (Node σ α)) (node : Node σ α) (v : ℕ) (flag : Bool),
      dlsLoop p node children l v flag = .none ↔
        flag = false ∧ ∀ c ∈ children, recursive_dls p c l (v + 1) = .none := by
  intro children
  induction children with
  | nil =>
    intro node v flag
    rw [dlsLoop]
    cases flag <;> simp
  | cons c rest ih =>
    intro node v flag
    rw [dlsLoop]
    cases hr : recursive_dls p c l (v + 1) with
    | none => simp [ih node v flag, hr]
    | cutoff => simp [ih node v true, hr]
    | tupNode n vv pl => simp [hr]
    | tupNested r vv pl => simp [hr]

lemma rd_none_iff (p : Problem σ α) :
    ∀ (limit : ℕ) (n : Node σ α) (v : ℕ),
      recursive_dls p n limit v = .none ↔ space_exhausted p n limit = true := by
  intro limit
  induction limit with
  | zero =>
    intro n v
    rw [recursive_dls, space_exhausted]
    by_cases h : p.goal_test n.state <;> simp [h]
  | succ l ih =>
    intro n v
    rw [recursive_dls, space_exhausted]
    by_cases h : p.goal_test n.state
    · simp [h]
    · have hf : p.goal_test n.state = false := by simpa using h
      rw [if_neg h, dlsLoop_none_iff p l (n.expand p) n v false]
      simp only [hf, Bool.not_false, Bool.true_and, List.all_eq_true,
        eq_self_iff_true, true_and]
      exact forall₂_congr fun c _ => ih c (v + 1)

lemma idsLoop_ne_cutoff (p : Problem σ α) :
    ∀ (fuel depth : ℕ), idsLoop p fuel depth ≠ .cutoff := by
  intro fuel
  induction fuel with
  | zero => intro depth h; rw [idsLoop] at h; exact DLSRes.noConfusion h
  | succ f ih =>
    intro depth h
    rw [idsLoop] at h
    cases hr : depth_limited_search p depth with
    | cutoff => rw [hr] at h; exact ih (depth + 1) h
    | none => rw [hr] at h; exact DLSRes.noConfusion h
    | tupNode n vv pl => rw [hr] at h; exact DLSRes.noConfusion h
    | tupNested r vv pl => rw [hr] at h; exact DLSRes.noConfusion h

/-- C1: for every two nodes `a` and `b`, `a == b` iff `a.state == b.state`,
and equal nodes have equal hash values, regardless of their parent, action,
path_cost or depth fields; this holds for every node, in particular for
nodes produced by `Node` construction or `expand`. -/
theorem claim_C1 [DecidableEq σ] (hashState : σ → ℕ) :
    (∀ a b : Node σ α, node_eq a b = true ↔ a.state = b.state) ∧
    (∀ a b : Node σ α, node_eq a b = true →
      node_hash hashState a = node_hash hashState b) ∧
    (∀ (s : σ) (p1 p2 : Option (Node σ α)) (a1 a2 : Option α) (c1 c2 : ℚ)
      (d1 d2 : ℕ),
      node_eq (Node.mk s p1 a1 c1 d1) (Node.mk s p2 a2 c2 d2) = true) ∧
    (∀ (p : Problem σ α) (n : Node σ α), ∀ c ∈ n.expand p,
      ∀ b : Node σ α, (node_eq c b = true ↔ c.state = b.state)) := by
  refine ⟨?_, ?_, ?_, ?_⟩
  · intro a b; simp [node_eq]
  · intro a b h
    simp only [node_eq, decide_eq_true_eq] at h
    simp [node_hash, h]
  · intro s p1 p2 a1 a2 c1 c2 d1 d2
    simp [node_eq, Node.state]
  · intro p n c _ b; simp [node_eq]

/-- C2: depth-limited search returns exactly one of three outcomes — a
success result carrying a goal node, the cutoff sentinel, or none; it
returns none exactly when the search space is exhausted strictly before the
depth limit (hence cutoff, not none, whenever the limit is exhausted before
the search space is); and iterative deepening, which calls it with limits
0, 1, 2, ..., never returns the cutoff sentinel. -/
theorem claim_C2 (p : Problem σ α) (limit : ℕ) :
    (depth_limited_search p limit = .none ∨
     depth_limited_search p limit = .cutoff ∨
     DLSSuccess p (depth_limited_search p limit)) ∧
    (depth_limited_search p limit = .none ↔
      space_exhausted p (Node.root p.initial) limit = true) ∧
    (space_exhausted p (Node.root p.initial) limit = false →
      ¬ DLSSuccess p (depth_limited_search p limit) →
      depth_limited_search p limit = .cutoff) ∧
    (∀ maxsize, iterative_deepening_search p maxsize ≠ .cutoff) := by
  unfold depth_limited_search iterative_deepening_search
  refine ⟨rd_classify p limit _ 0, rd_none_iff p limit _ 0, ?_,
    fun ms => idsLoop_ne_cutoff p ms 0⟩
  intro hex hns
  rcases rd_classify p limit (Node.root p.initial) 0 with h | h | h
  · rw [rd_none_iff p limit _ 0] at h
    rw [hex] at h
    exact Bool.noConfusion h
  · exact h
  · exact absurd h hns

lemma foldl_min_le_init (l : List ℚ) : ∀ a : ℚ, l.foldl min a ≤ a := by
  induction l with
  | nil => intro a; exact le_refl a
  | cons x xs ih =>
    intro a
    exact le_trans (ih (min a x)) (min_le_left a x)

lemma foldl_min_le_mem (l : List ℚ) :
    ∀ (a b : ℚ), b ∈ l → l.foldl min a ≤ b := by
  induction l with
  | nil => intro a b hb; cases hb
  | cons x xs ih =>
    intro a b hb
    rcases List.mem_cons.mp hb with rfl | hb2
    · exact le_trans (foldl_min_le_init xs (min a b)) (min_le_right a b)
    · exact ih (min a x) b hb2

lemma foldl_min_attained (l : List ℚ) :
    ∀ a : ℚ, l.foldl min a = a ∨ l.foldl min a ∈ l := by
  induction l with
  | nil => intro a; exact Or.inl rfl
  | cons x xs ih =>
    intro a
    rw [List.foldl_cons]
    rcases ih (min a x) with h | h
    · rcases min_choice a x with h2 | h2
      · exact Or.inl (by rw [h, h2])
      · exact Or.inr (by rw [h, h2]; exact List.mem_cons_self x xs)
    · exact Or.inr (List.mem_cons_of_mem x h)

lemma extractFirst_isSome (pred : β → Bool) :
    ∀ l : List β, (∃ y ∈ l, pred y = true) →
      (extractFirst pred l).isSome = true := by
  intro l
  induction l with
  | nil => rintro ⟨y, hy, _⟩; cases hy
  | cons x xs ih =>
    rintro ⟨y, hy, hp⟩
    rw [extractFirst]
    by_cases hx : pred x
    · simp [hx]
    · rcases List.mem_cons.mp hy with rfl | hy2
      · exact absurd hp hx
      · have h2 := ih ⟨y, hy2, hp⟩
        cases hres : extractFirst pred xs with
        | none => rw [hres] at h2; exact absurd h2 (by simp)
        | some yr => simp [hx, hres]

lemma extractFirst_mem_pred (pred : β → Bool) :
    ∀ (l : List β) (y : β) (r : List β),
      extractFirst pred l = some (y, r) → y ∈ l ∧ pred y = true := by
  intro l
  induction l with
  | nil => intro y r h; exact Option.noConfusion h
  | cons x xs ih =>
    intro y r h
    rw [extractFirst] at h
    by_cases hx : pred x
    · rw [if_pos hx] at h
      injection h with h2
      obtain ⟨rfl, rfl⟩ := Prod.mk.injEq .. ▸ (Prod.mk.inj h2)
      exact ⟨List.mem_cons_self x xs, hx⟩
    · rw [if_neg hx] at h
      cases hres : extractFirst pred xs with
      | none => rw [hres] at h; exact Option.noConfusion h
      | some yr =>
        rw [hres] at h
        have h2 : (yr.1, x :: yr.2) = (y, r) := Option.some.inj h
        have h3 := Prod.mk.inj h2
        have h4 := ih yr.1 yr.2 (by rw [hres])
        exact ⟨h3.1 ▸ List.mem_cons_of_mem x h4.1, h3.1 ▸ h4.2⟩

lemma pqPop_spec (f : Node σ α → ℚ) (l : List (Node σ α)) (hne : l ≠ []) :
    ∃ n rest, pqPop f l = some (n, rest) ∧ n ∈ l ∧ ∀ m ∈ l, f n ≤ f m := by
  match l with
  | [] => exact absurd rfl hne
  | x :: xs =>
    have hex : ∃ y ∈ x :: xs,
        (fun n => decide (f n = (xs.map f).foldl min (f x))) y = true := by
      rcases foldl_min_attained (xs.map f) (f x) with h | h
      · exact ⟨x, List.mem_cons_self x xs, by simp [h]⟩
      · obtain ⟨y, hy, hfy⟩ := List.mem_map.mp h
        exact ⟨y, List.mem_cons_of_mem x hy, by simp [hfy]⟩
    have hs := extractFirst_isSome _ _ hex
    cases hres : extractFirst
        (fun n => decide (f n = (xs.map f).foldl min (f x))) (x :: xs) with
    | none => rw [hres] at hs; exact absurd hs (by simp)
    | some nr =>
      obtain ⟨hmem, hpred⟩ := extractFirst_mem_pred _ _ nr.1 nr.2 (by rw [hres])
      refine ⟨nr.1, nr.2, ?_, hmem, ?_⟩
      · rw [pqPop, hres]
      · intro q hq
        have hfm : f nr.1 = (xs.map f).foldl min (f x) := by simpa using hpred
        rw [hfm]
        rcases List.mem_cons.mp hq with rfl | hq2
        · exact foldl_min_le_init (xs.map f) (f q)
        · exact foldl_min_le_mem (xs.map f) (f x) (f q)
            (List.mem_map_of_mem f hq2)

lemma bftsLoop_shape (p : Problem σ α) :
    ∀ (fuel : ℕ) (fr : List (Node σ α)) (nv : ℕ) (r : PyVal σ α),
      bftsLoop p fuel fr nv = some r →
        (∃ n, r = .node n ∧ p.goal_test n.state = true) ∨ r = .none := by
  intro fuel
  induction fuel with
  | zero => intro fr nv r h; exact Option.noConfusion h
  | succ f ih =>
    intro fr nv r h
    cases fr with
    | nil =>
      rw [bftsLoop] at h
      exact Or.inr (Option.some.inj h).symm
    | cons n rest =>
      rw [bftsLoop] at h
      by_cases hg : p.goal_test n.state
      · rw [if_pos hg] at h
        exact Or.inl ⟨n, (Option.some.inj h).symm, hg⟩
      · rw [if_neg hg] at h
        exact ih _ _ _ h

lemma dftsLoop_shape [DecidableEq σ] (p : Problem σ α) :
    ∀ (fuel : ℕ) (fr visited : List (Node σ α)) (nv : ℕ) (r : PyVal σ α),
      dftsLoop p fuel fr visited nv = some r →
        (∃ n, r = .node n ∧ p.goal_test n.state = true) ∨ r = .none := by
  intro fuel
  induction fuel with
  | zero => intro fr visited nv r h; exact Option.noConfusion h
  | succ f ih =>
    intro fr visited nv r h
    cases fr with
    | nil =>
      rw [dftsLoop] at h
      exact Or.inr (Option.some.inj h).symm
    | cons n rest =>
      rw [dftsLoop] at h
      by_cases hv : nodeMem n visited
      · rw [if_pos hv] at h
        exact ih _ _ _ _ h
      · rw [if_neg hv] at h
        by_cases hg : p.goal_test n.state
        · rw [if_pos hg] at h
          exact Or.inl ⟨n, (Option.some.inj h).symm, hg⟩
        · rw [if_neg hg] at h
          exact ih _ _ _ _ h

/-- C3 (claim as stated, confirmed): each iteration of
`best_first_graph_search` pops a node of lowest memoized `f` from the
frontier and returns it immediately if it passes the goal test; otherwise
its state is marked explored and each child is processed by the frontier
discipline: a child whose state is neither explored nor in the frontier is
appended, and a child already in the frontier replaces the stored copy
exactly when its `f` is strictly lower than the stored copy's. -/
theorem claim_C3 [DecidableEq σ] (p : Problem σ α) (f : Node σ α → ℚ)
    (frontier : List (Node σ α)) (explored : List σ) (visited : ℕ) :
    (frontier ≠ [] → ∃ n rest, pqPop f frontier = some (n, rest) ∧
      n ∈ frontier ∧ (∀ m ∈ frontier, f n ≤ f m) ∧
      (p.goal_test n.state = true →
        bfgsStep p f frontier explored visited =
          .found n visited n.path.length) ∧
      (p.goal_test n.state = false →
        bfgsStep p f frontier explored visited =
          .next ((n.expand p).foldl (bfgsChild f (setAdd n.state explored))
            rest) (setAdd n.state explored) (visited + 1))) ∧
    (∀ child : Node σ α,
      (child.state ∉ explored → frontMem frontier child = false →
        bfgsChild f explored frontier child = frontier ++ [child]) ∧
      (∀ storedF : ℚ, frontMem frontier child = true →
        frontGetF f frontier child = some storedF →
        (f child < storedF →
          bfgsChild f explored frontier child =
            frontDel frontier child ++ [child]) ∧
        (storedF ≤ f child →
          bfgsChild f explored frontier child = frontier))) := by
  constructor
  · intro hne
    obtain ⟨n, rest, hpop, hmem, hmin⟩ := pqPop_spec f frontier hne
    refine ⟨n, rest, hpop, hmem, hmin, ?_, ?_⟩
    · intro hg
      simp [bfgsStep, hpop, hg]
    · intro hg
      simp [bfgsStep, hpop, hg]
  · intro child
    constructor
    · intro hnex hnf
      rw [bfgsChild, if_pos ⟨hnex, hnf⟩]
    · intro storedF hf hget
      have hnotfirst : ¬ (child.state ∉ explored ∧
          frontMem frontier child = false) := by
        rintro ⟨_, h2⟩
        rw [hf] at h2
        exact Bool.noConfusion h2
      constructor
      · intro hlt
        simp only [bfgsChild, if_neg hnotfirst, if_pos hf, hget, if_pos hlt]
      · intro hge
        simp only [bfgsChild, if_neg hnotfirst, if_pos hf, hget,
          if_neg (not_lt.mpr hge)]

/-- C3 witness: the frontier discipline applied at a concrete instance. -/
theorem claim_C3_witness :
    bfgsChild (fun _ => (0 : ℚ)) ([] : List ℕ) []
        (Node.root 0 : Node ℕ Unit) = [Node.root 0] := by
  have h := (claim_C3 goalP (fun _ => (0 : ℚ)) [] [] 0).2 (Node.root 0)
  exact h.1 (by simp) rfl

lemma bfgsStep_found [DecidableEq σ] (p : Problem σ α) (f : Node σ α → ℚ)
    (fr : List (Node σ α)) (ex : List σ) (v : ℕ) (m : Node σ α)
    (vis plen : ℕ) :
    bfgsStep p f fr ex v = .found m vis plen → p.goal_test m.state = true := by
  intro h
  rw [bfgsStep] at h
  cases hpop : pqPop f fr with
  | none => rw [hpop] at h; exact BFGSStep.noConfusion h
  | some nr =>
    rw [hpop] at h
    obtain ⟨node, rest⟩ := nr
    by_cases hg : p.goal_test node.state
    · simp only [hg, if_true, BFGSStep.found.injEq] at h
      exact h.1 ▸ hg
    · simp [hg] at h

lemma bfgsLoop_goal [DecidableEq σ] (p : Problem σ α) (f : Node σ α → ℚ) :
    ∀ (fuel : ℕ) (fr : List (Node σ α)) (ex : List σ)
      (v : ℕ) (n : Node σ α) (vv ll : ℕ),
      bfgsLoop p f fuel fr ex v = some (some n, vv, ll) →
        p.goal_test n.state = true := by
  intro fuel
  induction fuel with
  | zero => intro fr ex v n vv ll h; exact Option.noConfusion h
  | succ fu ih =>
    intro fr ex v n vv ll h
    rw [bfgsLoop] at h
    cases hstep : bfgsStep p f fr ex v with
    | emptyFrontier => rw [hstep] at h; simp at h
    | found m vis plen =>
      rw [hstep] at h
      simp only [Option.some.injEq, Prod.mk.injEq] at h
      obtain ⟨h1, -⟩ := h
      exact h1 ▸ bfgsStep_found p f fr ex v m vis plen hstep
    | next fr2 ex2 v2 => rw [hstep] at h; exact ih fr2 ex2 v2 n vv ll h

/-- C4 counterexample: on a problem whose initial state is a goal,
`breadth_first_tree_search` returns a bare node, not a
`(node, visited, pathLength)` triple, so the claim that the tree searches
return such triples is false. -/
theorem claim_C4_counterexample :
    breadth_first_tree_search goalP 5 =
      some (PyVal.node (Node.mk 0 Option.none Option.none 0 0)) ∧
    isTriple (breadth_first_tree_search goalP 5) = false := ⟨rfl, rfl⟩

/-- C4 (amended): `best_first_graph_search` returns a
`(node-or-none, visited, pathLength)` triple whose node component, when
present, is a goal node, but `breadth_first_tree_search` and
`depth_first_tree_search` return a bare node (a goal node) or bare none,
never a triple. -/
theorem claim_C4 [DecidableEq σ] (p : Problem σ α) (f : Node σ α → ℚ)
    (fuel : ℕ) :
    isTriple (breadth_first_tree_search p fuel) = false ∧
    isTriple (depth_first_tree_search p fuel) = false ∧
    (∀ n, breadth_first_tree_search p fuel = some (.node n) →
      p.goal_test n.state = true) ∧
    (∀ n, depth_first_tree_search p fuel = some (.node n) →
      p.goal_test n.state = true) ∧
    (∀ (n : Node σ α) (v l : ℕ),
      best_first_graph_search p f fuel = some (some n, v, l) →
      p.goal_test n.state = true) := by
  refine ⟨?_, ?_, ?_, ?_, ?_⟩
  · cases hres : breadth_first_tree_search p fuel with
    | none => rfl
    | some r =>
      rcases bftsLoop_shape p fuel _ _ r hres with ⟨n, rfl, _⟩ | rfl <;> rfl
  · cases hres : depth_first_tree_search p fuel with
    | none => rfl
    | some r =>
      rcases dftsLoop_shape p fuel _ _ _ r hres with ⟨n, rfl, _⟩ | rfl <;> rfl
  · intro n hres
    rcases bftsLoop_shape p fuel _ _ _ hres with ⟨m, hm, hg⟩ | hm
    · cases hm; exact hg
    · exact PyVal.noConfusion hm
  · intro n hres
    rcases dftsLoop_shape p fuel _ _ _ _ hres with ⟨m, hm, hg⟩ | hm
    · cases hm; exact hg
    · exact PyVal.noConfusion hm
  · intro n v l hres
    exact bfgsLoop_goal p f fuel _ _ _ n v l hres

/-- C4 witness: the amended claim applied to a concrete run. -/
theorem claim_C4_witness :
    goalP.goal_test
      (Node.mk 0 Option.none Option.none 0 0 : Node ℕ Unit).state = true := by
  have h := claim_C4 goalP (fun _ => (0 : ℚ)) 5
  exact h.2.2.1 _ rfl

lemma dftsSpecCyc :
    ∀ (fuel : ℕ) (n : Node ℕ Unit) (nv : ℕ), n.state ≤ 1 →
      dftsSpecLoop cycP fuel [n] nv = Option.none := by
  intro fuel
  induction fuel with
  | zero => intro n nv h; rw [dftsSpecLoop]
  | succ fu ih =>
    intro n nv h
    rw [dftsSpecLoop]
    rw [if_neg (by simp [cycP])]
    have hexp : n.expand cycP =
        [Node.mk (1 - n.state) (some n) (some ()) n.path_cost
          (n.depth + 1)] := by
      simp [Node.expand, cycP, h]
    rw [hexp]
    simp only [List.reverse_cons, List.reverse_nil, List.nil_append,
      List.append_nil]
    exact ih _ (nv + 1) (by simp [Node.state])

/-- C7 counterexample: on the two-state cyclic goal-free problem `cycP`,
the embedded `depth_first_tree_search` terminates with `None` within fuel
10 (its visited list prunes the revisit), while the behaviour the claim
describes — every popped node goal-tested and expanded regardless —
is still running at fuel 10 (indeed it never terminates). -/
theorem claim_C7_counterexample :
    depth_first_tree_search cycP 10 = some PyVal.none ∧
    depth_first_tree_search_spec cycP 10 = Option.none := ⟨rfl, rfl⟩

/-- C7 (amended): `breadth_first_tree_search` maintains no explored set —
every popped node is goal-tested and expanded; but
`depth_first_tree_search` maintains a visited list of nodes keyed by node
(state) equality and a popped node whose state was already visited is
skipped without goal test or expansion; consequently tree DFS terminates on
the cyclic problem `cycP` while the unpruned behaviour never does. -/
theorem claim_C7 [DecidableEq σ] (p : Problem σ α) :
    (∀ (fuel : ℕ) (n : Node σ α) (rest : List (Node σ α)) (nv : ℕ),
      bftsLoop p (fuel + 1) (n :: rest) nv =
        if p.goal_test n.state = true then some (.node n)
        else bftsLoop p fuel (rest ++ n.expand p) (nv + 1)) ∧
    (∀ (fuel : ℕ) (n : Node σ α) (rest visited : List (Node σ α)) (nv : ℕ),
      nodeMem n visited = true →
      dftsLoop p (fuel + 1) (n :: rest) visited nv =
        dftsLoop p fuel rest visited nv) ∧
    (∀ (fuel : ℕ) (n : Node σ α) (rest visited : List (Node σ α)) (nv : ℕ),
      nodeMem n visited = false →
      dftsLoop p (fuel + 1) (n :: rest) visited nv =
        if p.goal_test n.state = true then some (.node n)
        else dftsLoop p fuel ((n.expand p).reverse ++ rest) (visited ++ [n])
          (nv + 1)) ∧
    (∀ n m : Node σ α, (nodeMem n [m] = true ↔ m.state = n.state)) ∧
    depth_first_tree_search cycP 10 = some PyVal.none ∧
    (∀ (fuel nv : ℕ) (n : Node ℕ Unit), n.state ≤ 1 →
      dftsSpecLoop cycP fuel [n] nv = Option.none) := by
  refine ⟨?_, ?_, ?_, ?_, rfl, fun fuel nv n h => dftsSpecCyc fuel n nv h⟩
  · intro fuel n rest nv
    rw [bftsLoop]
  · intro fuel n rest visited nv hv
    rw [dftsLoop, if_pos hv]
  · intro fuel n rest visited nv hv
    rw [dftsLoop, if_neg (by rw [hv]; exact Bool.noConfusion)]
  · intro n m
    simp [nodeMem, node_eq]

/-- C7 witness: the skip equation applied at a concrete revisit. -/
theorem claim_C7_witness :
    dftsLoop cycP 1 [Node.root 0] [Node.root 0] 0 =
      dftsLoop cycP 0 [] [Node.root 0] 0 := by
  exact (claim_C7 cycP).2.1 0 (Node.root 0) [] [Node.root 0] 0 rfl

lemma rbfs_goal (p : Problem σ α) (h : Node σ α → ℚ) :
    ∀ fuel : ℕ,
      (∀ (node : Node σ α) (nodeF flimit : WithTop ℚ) (n : Node σ α)
        (f2 : WithTop ℚ),
        RBFSrec p h fuel node nodeF flimit = some (some n, f2) →
          p.goal_test n.state = true) ∧
      (∀ (sorted : List (Node σ α × WithTop ℚ)) (flimit : WithTop ℚ)
        (n : Node σ α) (f2 : WithTop ℚ),
        rbfsStep p h fuel sorted flimit = some (some n, f2) →
          p.goal_test n.state = true) ∧
      (∀ (succs : List (Node σ α × WithTop ℚ)) (flimit : WithTop ℚ)
        (n : Node σ α) (f2 : WithTop ℚ),
        rbfsLoop p h fuel succs flimit = some (some n, f2) →
          p.goal_test n.state = true) := by
  have stepCase : ∀ fuel : ℕ,
      (∀ (node : Node σ α) (nodeF flimit : WithTop ℚ) (n : Node σ α)
        (f2 : WithTop ℚ),
        RBFSrec p h fuel node nodeF flimit = some (some n, f2) →
          p.goal_test n.state = true) →
      (∀ (succs : List (Node σ α × WithTop ℚ)) (flimit : WithTop ℚ)
        (n : Node σ α) (f2 : WithTop ℚ),
        rbfsLoop p h fuel succs flimit = some (some n, f2) →
          p.goal_test n.state = true) →
      ∀ (sorted : List (Node σ α × WithTop ℚ)) (flimit : WithTop ℚ)
        (n : Node σ α) (f2 : WithTop ℚ),
        rbfsStep p h fuel sorted flimit = some (some n, f2) →
          p.goal_test n.state = true := by
    intro fuel hP hR sorted flimit n f2 hres
    cases sorted with
    | nil => rw [rbfsStep] at hres; exact Option.noConfusion hres
    | cons best rest =>
      rw [rbfsStep] at hres
      by_cases hlim : flimit < best.2
      · rw [if_pos hlim] at hres; simp at hres
      · rw [if_neg hlim] at hres
        cases hrec : RBFSrec p h fuel best.1 best.2
            (min flimit (altOf rest)) with
        | none => rw [hrec] at hres; exact Option.noConfusion hres
        | some rf =>
          obtain ⟨result, newF⟩ := rf
          rw [hrec] at hres
          cases result with
          | some m =>
            simp only [Option.some.injEq, Prod.mk.injEq] at hres
            obtain ⟨h1, -⟩ := hres
            exact h1 ▸ hP _ _ _ _ _ hrec
          | none =>
            simp only [] at hres
            exact hR _ _ _ _ hres
  intro fuel
  induction fuel with
  | zero =>
    have hP : ∀ (node : Node σ α) (nodeF flimit : WithTop ℚ)
        (n : Node σ α) (f2 : WithTop ℚ),
        RBFSrec p h 0 node nodeF flimit = some (some n, f2) →
          p.goal_test n.state = true := by
      intro node nodeF flimit n f2 hres
      rw [RBFSrec] at hres
      exact Option.noConfusion hres
    have hR : ∀ (succs : List (Node σ α × WithTop ℚ)) (flimit : WithTop ℚ)
        (n : Node σ α) (f2 : WithTop ℚ),
        rbfsLoop p h 0 succs flimit = some (some n, f2) →
          p.goal_test n.state = true := by
      intro succs flimit n f2 hres
      rw [rbfsLoop] at hres
      exact Option.noConfusion hres
    exact ⟨hP, stepCase 0 hP hR, hR⟩
  | succ fu ih =>
    have hP : ∀ (node : Node σ α) (nodeF flimit : WithTop ℚ)
        (n : Node σ α) (f2 : WithTop ℚ),
        RBFSrec p h (fu + 1) node nodeF flimit = some (some n, f2) →
          p.goal_test n.state = true := by
      intro node nodeF flimit n f2 hres
      rw [RBFSrec] at hres
      by_cases hg : p.goal_test node.state
      · simp only [hg, if_true, Option.some.injEq, Prod.mk.injEq] at hres
        obtain ⟨h1, -⟩ := hres
        exact h1 ▸ hg
      · rw [if_neg hg] at hres
        cases hinit : rbfsInit p h node nodeF with
        | nil => rw [hinit] at hres; simp at hres
        | cons s ss =>
          rw [hinit] at hres
          simp only [] at hres
          exact ih.2.2 _ _ _ _ hres
    have hR : ∀ (succs : List (Node σ α × WithTop ℚ)) (flimit : WithTop ℚ)
        (n : Node σ α) (f2 : WithTop ℚ),
        rbfsLoop p h (fu + 1) succs flimit = some (some n, f2) →
          p.goal_test n.state = true := by
      intro succs flimit n f2 hres
      rw [rbfsLoop] at hres
      exact ih.2.1 _ _ _ _ hres
    exact ⟨hP, stepCase (fu + 1) hP hR, hR⟩

/-- C5: in `recursive_best_first_search`, every expanded child's `f` is set
to `max(child.path_cost + h(child), parent.f)` — hence `f` never decreases
from parent to child along an explored path; when the best (sorted-first)
child's `f` exceeds the limit, failure is returned with that `f` as the new
bound; otherwise the recursion descends into the best child with limit
`min(current limit, second-best f)`, stores the reported `f` back on the
best child, and loops unless a result was found; and the function returns
only the goal node or none, with no visitation or path-length counters. -/
theorem claim_C5 (p : Problem σ α) (h : Node σ α → ℚ) (node : Node σ α)
    (nodeF : WithTop ℚ) (fuel : ℕ)
    (best : Node σ α × WithTop ℚ)
    (restSorted : List (Node σ α × WithTop ℚ)) (flimit : WithTop ℚ) :
    (∀ sf ∈ rbfsInit p h node nodeF,
      sf.2 = max ((sf.1.path_cost + h sf.1 : ℚ) : WithTop ℚ) nodeF ∧
      nodeF ≤ sf.2) ∧
    (flimit < best.2 →
      rbfsStep p h fuel (best :: restSorted) flimit =
        some (Option.none, best.2)) ∧
    (¬ flimit < best.2 →
      rbfsStep p h fuel (best :: restSorted) flimit =
        match RBFSrec p h fuel best.1 best.2
            (min flimit (altOf restSorted)) with
        | Option.none => Option.none
        | some (result, newF) =>
          match result with
          | some n => some (some n, newF)
          | Option.none =>
            rbfsLoop p h fuel ((best.1, newF) :: restSorted) flimit) ∧
    (rbfsLoop p h (fuel + 1) (best :: restSorted) flimit =
      rbfsStep p h fuel (sortByF (best :: restSorted)) flimit) ∧
    (∀ n, recursive_best_first_search p h fuel = some (some n) →
      p.goal_test n.state = true) := by
  refine ⟨?_, ?_, ?_, ?_, ?_⟩
  · intro sf hsf
    rw [rbfsInit] at hsf
    obtain ⟨s, -, rfl⟩ := List.mem_map.mp hsf
    exact ⟨rfl, le_max_right _ _⟩
  · intro hlim
    rw [rbfsStep, if_pos hlim]
  · intro hlim
    rw [rbfsStep, if_neg hlim]
  · rw [rbfsLoop]
  · intro n hres
    rw [recursive_best_first_search] at hres
    cases hrec : RBFSrec p h fuel (Node.root p.initial)
        ((h (Node.root p.initial) : ℚ) : WithTop ℚ) ⊤ with
    | none => rw [hrec] at hres; exact Option.noConfusion hres
    | some rf =>
      rw [hrec] at hres
      obtain ⟨result, f2⟩ := rf
      have h1 : result = some n := Option.some.inj hres
      exact (rbfs_goal p h fuel).1 _ _ _ _ _ (h1 ▸ hrec)

/-- C5 witness: the failure step at a concrete instance where the best
`f` (5) exceeds the limit (3). -/
theorem claim_C5_witness :
    rbfsStep goalP (fun _ => (0 : ℚ)) 1
        [(Node.root 0, ((5 : ℚ) : WithTop ℚ))] ((3 : ℚ) : WithTop ℚ) =
      some (Option.none, ((5 : ℚ) : WithTop ℚ)) := by
  have h := (claim_C5 goalP (fun _ => (0 : ℚ)) (Node.root 0) ⊤ 1
    (Node.root 0, ((5 : ℚ) : WithTop ℚ)) [] ((3 : ℚ) : WithTop ℚ)).2.1
  exact h (by decide)

/-- C6: `bidirectional_search` returns the bound `U` exactly when
`U <= max(C, f_min_f, f_min_b, g_min_f + g_min_b + e)` holds at the top of
an iteration, where `C` is the smaller of the two directions' minimum
priorities, a node's priority being `max(f, 2g)` (third conjunct); and when
either open list is empty it returns infinity as a normal value, not
through the error outcome. -/
theorem claim_C6 [DecidableEq σ] (p : BiProblem σ) (st : BiState σ)
    (fuel : ℕ) :
    (st.open_f = [] ∨ st.open_b = [] →
      bidirStep p st = .ret ⊤ ∧ bidirLoop p (fuel + 1) st = .val ⊤) ∧
    (∀ (prF fF : WithTop ℚ) (gF : ℚ) (prB fB : WithTop ℚ) (gB : ℚ),
      st.open_f ≠ [] → st.open_b ≠ [] →
      findMin p st.open_f st.g_f = some (prF, fF, gF) →
      findMin p st.open_b st.gg_b = some (prB, fB, gB) →
      (bidirStep p st = .ret st.U ↔
        st.U ≤ max (max (max (min prF prB) fF) fB)
          ((gF + gB + p.find_min_edge : ℚ) : WithTop ℚ))) ∧
    (∀ (g : List (σ × ℚ)) (s : σ) (gs : ℚ) (rest : List σ)
      (m mf : WithTop ℚ), dlookup g s = some gs →
      findMinLoop p g (s :: rest) m mf =
        findMinLoop p g rest
          (min m ((max (gs + p.h s) (2 * gs) : ℚ) : WithTop ℚ))
          (min mf ((gs + p.h s : ℚ) : WithTop ℚ))) := by
  refine ⟨?_, ?_, ?_⟩
  · intro hempty
    have h1 : bidirStep p st = .ret ⊤ := by rw [bidirStep, if_pos hempty]
    exact ⟨h1, by rw [bidirLoop, h1]⟩
  · intro prF fF gF prB fB gB hne1 hne2 hminf hminb
    have hno : ¬ (st.open_f = [] ∨ st.open_b = []) := by
      rintro (h | h)
      · exact hne1 h
      · exact hne2 h
    constructor
    · intro hstep
      rw [bidirStep, if_neg hno] at hstep
      simp only [hminf, hminb] at hstep
      by_cases hcond : st.U ≤ max (max (max (min prF prB) fF) fB)
          ((gF + gB + p.find_min_edge : ℚ) : WithTop ℚ)
      · exact hcond
      · exfalso
        rw [if_neg hcond] at hstep
        by_cases hC : min prF prB = prF
        · rw [if_pos hC] at hstep
          cases hext : extend p (min prF prB) st.U st.open_f st.open_b
              st.g_f st.gg_b st.closed_f with
          | none => rw [hext] at hstep; exact BiIter.noConfusion hstep
          | some q =>
            obtain ⟨U2, o2, c2, g2⟩ := q
            rw [hext] at hstep
            simp only [] at hstep
            exact BiIter.noConfusion hstep
        · rw [if_neg hC] at hstep
          cases hext : extend p (min prF prB) st.U st.open_b st.open_f
              st.gg_b st.g_f st.closed_b with
          | none => rw [hext] at hstep; exact BiIter.noConfusion hstep
          | some q =>
            obtain ⟨U2, o2, c2, g2⟩ := q
            rw [hext] at hstep
            simp only [] at hstep
            exact BiIter.noConfusion hstep
    · intro hcond
      rw [bidirStep, if_neg hno]
      simp only [hminf, hminb]
      rw [if_pos hcond]
  · intro g s gs rest m mf hlk
    rw [findMinLoop, hlk]

/-- C6 witness: an empty forward open list returns infinity as a value. -/
theorem claim_C6_witness :
    bidirStep biTestP biTestSt = .ret ⊤ ∧
    bidirLoop biTestP 1 biTestSt = .val ⊤ :=
  (claim_C6 biTestP biTestSt 0).1 (Or.inl rfl)

lemma foldl_max_init_le (l : List ℚ) : ∀ a : ℚ, a ≤ l.foldl max a := by
  induction l with
  | nil => intro a; exact le_refl a
  | cons x xs ih =>
    intro a
    exact le_trans (le_max_left a x) (ih (max a x))

lemma foldl_max_mem_le (l : List ℚ) :
    ∀ (a b : ℚ), b ∈ l → b ≤ l.foldl max a := by
  induction l with
  | nil => intro a b hb; cases hb
  | cons x xs ih =>
    intro a b hb
    rcases List.mem_cons.mp hb with rfl | hb2
    · exact le_trans (le_max_right a b) (foldl_max_init_le xs (max a b))
    · exact ih (max a x) b hb2

lemma argmax_tie_spec (key : β → ℚ) (idx : ℕ) :
    ∀ (l : List β) (y : β), argmax_tie key idx l = some y →
      y ∈ l ∧ ∀ m ∈ l, key m ≤ key y := by
  intro l y h
  match l with
  | [] => exact Option.noConfusion h
  | x :: xs =>
    rw [argmax_tie] at h
    have hy := List.getElem?_mem h
    have hfil := List.mem_filter.mp hy
    refine ⟨hfil.1, ?_⟩
    have hkey : key y = (xs.map key).foldl max (key x) := by
      simpa using hfil.2
    intro m hm
    rw [hkey]
    rcases List.mem_cons.mp hm with rfl | hm2
    · exact foldl_max_init_le (xs.map key) (key m)
    · exact foldl_max_mem_le (xs.map key) (key x) (key m)
        (List.mem_map_of_mem key hm2)

lemma hcSideway_value_mono (p : Problem σ α) (oracle : ℕ → ℕ)
    (bound : ℕ) :
    ∀ (fuel : ℕ) (cur : Node σ α) (mov vis t : ℕ) (res : Node σ α)
      (v l : ℕ),
      hcSidewayLoop p oracle bound fuel cur mov vis t = some (res, v, l) →
      p.value cur.state ≤ p.value res.state := by
  intro fuel
  induction fuel with
  | zero => intro cur mov vis t res v l h; exact Option.noConfusion h
  | succ fu ih =>
    intro cur mov vis t res v l h
    rw [hcSidewayLoop] at h
    cases hexp : cur.expand p with
    | nil =>
      rw [hexp] at h
      simp only [Option.some.injEq, Prod.mk.injEq] at h
      exact h.1 ▸ le_refl _
    | cons nb nbs =>
      rw [hexp] at h
      cases hch : argmax_tie (fun nd => p.value nd.state) (oracle t)
          (nb :: nbs) with
      | none =>
        simp only [hch, Option.some.injEq, Prod.mk.injEq] at h
        exact h.1 ▸ le_refl _
      | some neighbor =>
        simp only [hch] at h
        by_cases h1 : p.value neighbor.state < p.value cur.state
        · rw [if_pos h1] at h
          simp only [Option.some.injEq, Prod.mk.injEq] at h
          exact h.1 ▸ le_refl _
        · rw [if_neg h1] at h
          by_cases h2 : p.value neighbor.state = p.value cur.state ∧
              mov = bound
          · rw [if_pos h2] at h
            simp only [Option.some.injEq, Prod.mk.injEq] at h
            exact h.1 ▸ le_refl _
          · rw [if_neg h2] at h
            by_cases h3 : p.value neighbor.state = p.value cur.state
            · rw [if_pos h3] at h
              exact h3 ▸ ih _ _ _ _ _ _ _ h
            · rw [if_neg h3] at h
              exact le_trans (not_lt.mp h1) (ih _ _ _ _ _ _ _ h)

/-- C9 (amended): `hill_climbing_sideway` never moves to a neighbour of
strictly lower value (the returned node's value is at least the start's,
and a strictly-lower best neighbour stops the loop); it stops when an
equal-value move is selected with the sideways counter already at `bound`;
the counter is incremented on each equal-value move and left unchanged —
not reset — on a strictly improving move, so the allowance applies to the
total number of sideways moves in the run, not to a consecutive run; and
the chosen neighbour always maximises `value` over the expansion. -/
theorem claim_C9 (p : Problem σ α) (oracle : ℕ → ℕ) (bound : ℕ) :
    (∀ (fuel : ℕ) (cur : Node σ α) (mov vis t : ℕ) (res : Node σ α)
      (v l : ℕ),
      hcSidewayLoop p oracle bound fuel cur mov vis t = some (res, v, l) →
      p.value cur.state ≤ p.value res.state) ∧
    (∀ (fuel : ℕ) (cur : Node σ α) (mov vis t : ℕ) (nb : Node σ α)
      (nbs : List (Node σ α)) (neighbor : Node σ α),
      cur.expand p = nb :: nbs →
      argmax_tie (fun nd => p.value nd.state) (oracle t) (nb :: nbs) =
        some neighbor →
      (p.value neighbor.state < p.value cur.state →
        hcSidewayLoop p oracle bound (fuel + 1) cur mov vis t =
          some (cur, vis, cur.path.length)) ∧
      (p.value neighbor.state = p.value cur.state → mov = bound →
        hcSidewayLoop p oracle bound (fuel + 1) cur mov vis t =
          some (cur, vis, cur.path.length)) ∧
      (p.value neighbor.state = p.value cur.state → mov ≠ bound →
        hcSidewayLoop p oracle bound (fuel + 1) cur mov vis t =
          hcSidewayLoop p oracle bound fuel neighbor (mov + 1) (vis + 1)
            (t + 1)) ∧
      (p.value cur.state < p.value neighbor.state →
        hcSidewayLoop p oracle bound (fuel + 1) cur mov vis t =
          hcSidewayLoop p oracle bound fuel neighbor mov (vis + 1)
            (t + 1))) ∧
    (∀ (t : ℕ) (nbs : List (Node σ α)) (neighbor : Node σ α),
      argmax_tie (fun nd => p.value nd.state) (oracle t) nbs =
        some neighbor →
      neighbor ∈ nbs ∧ ∀ m ∈ nbs,
        p.value m.state ≤ p.value neighbor.state) := by
  refine ⟨hcSideway_value_mono p oracle bound, ?_, ?_⟩
  · intro fuel cur mov vis t nb nbs neighbor hexp hch
    refine ⟨?_, ?_, ?_, ?_⟩
    · intro h1
      rw [hcSidewayLoop, hexp]
      simp only [hch]
      rw [if_pos h1]
    · intro h3 h2
      rw [hcSidewayLoop, hexp]
      simp only [hch]
      rw [if_neg (not_lt.mpr (le_of_eq h3.symm)), if_pos ⟨h3, h2⟩]
    · intro h3 h2
      rw [hcSidewayLoop, hexp]
      simp only [hch]
      rw [if_neg (not_lt.mpr (le_of_eq h3.symm)),
        if_neg (fun hc => h2 hc.2), if_pos h3]
    · intro h4
      have h1 : ¬ p.value neighbor.state < p.value cur.state :=
        not_lt.mpr (le_of_lt h4)
      have h3 : ¬ p.value neighbor.state = p.value cur.state :=
        fun hc => absurd (hc ▸ h4) (lt_irrefl _)
      rw [hcSidewayLoop, hexp]
      simp only [hch]
      rw [if_neg h1, if_neg (fun hc => h3 hc.1), if_neg h3]
  · intro t nbs neighbor hch
    exact argmax_tie_spec _ (oracle t) nbs neighbor hch

/-- C9 counterexample: on the chain 0-1-2-3 with values 0, 0, 1, 1 and
`bound = 1`, the code stops at state 2 — the improving move 1 to 2 did not
reset the sideways counter — while the behaviour the claim describes
(counter reset on improving moves) walks on to state 3. -/
theorem claim_C9_counterexample :
    hcResultState (hill_climbing_sideway chainP (fun _ => 0) 1 10) =
      some 2 ∧
    hcResultState (hill_climbing_sideway_spec chainP (fun _ => 0) 1 10) =
      some 3 := ⟨rfl, rfl⟩

/-- C9 witness: the equal-value step with the counter below the bound,
applied at a concrete configuration. -/
theorem claim_C9_witness :
    hcSidewayLoop chainP (fun _ => 0) 1 1 (Node.root 0) 0 0 0 =
      hcSidewayLoop chainP (fun _ => 0) 1 0
        (Node.mk 1 (some (Node.root 0)) (some ()) 0 1) 1 1 1 := by
  have h := (claim_C9 chainP (fun _ => 0) 1).2.1 0 (Node.root 0) 0 0 0
    (Node.mk 1 (some (Node.root 0)) (some ()) 0 1) []
    (Node.mk 1 (some (Node.root 0)) (some ()) 0 1) rfl rfl
  exact h.2.2.1 rfl (by decide)

lemma saLoop_stable (p : Problem σ α) (schedule : ℕ → ℚ)
    (co : ℕ → ℕ) (ao : ℕ → Bool) (hsched : schedule 100 = 0) :
    ∀ (fuel t : ℕ) (cur : Node σ α) (vis : ℕ), t ≤ 100 →
      101 - t ≤ fuel →
      ∃ r, saLoop p schedule co ao fuel t cur vis = some r ∧
        ∀ fuel2, 101 - t ≤ fuel2 →
          saLoop p schedule co ao fuel2 t cur vis = some r := by
  intro fuel
  induction fuel with
  | zero => intro t cur vis ht hf; omega
  | succ fu ih =>
    intro t cur vis ht hf
    by_cases hT : schedule t = 0
    · refine ⟨(cur, vis, cur.path.length), ?_, ?_⟩
      · rw [saLoop, if_pos hT]
      · intro fuel2 hf2
        obtain ⟨f2, rfl⟩ : ∃ f2, fuel2 = f2 + 1 := ⟨fuel2 - 1, by omega⟩
        rw [saLoop, if_pos hT]
    · have ht2 : t < 100 := by
        rcases Nat.lt_or_ge t 100 with h | h
        · exact h
        · exact absurd (le_antisymm ht h ▸ hsched) hT
      cases hexp : cur.expand p with
      | nil =>
        refine ⟨(cur, vis, cur.path.length), ?_, ?_⟩
        · rw [saLoop, if_neg hT, hexp]
        · intro fuel2 hf2
          obtain ⟨f2, rfl⟩ : ∃ f2, fuel2 = f2 + 1 := ⟨fuel2 - 1, by omega⟩
          rw [saLoop, if_neg hT, hexp]
      | cons nb nbs =>
        have hlt : co t % (nb :: nbs).length < (nb :: nbs).length :=
          Nat.mod_lt _ (by simp)
        have hch : (nb :: nbs)[co t % (nb :: nbs).length]? =
            some ((nb :: nbs)[co t % (nb :: nbs).length]) :=
          List.getElem?_eq_getElem hlt
        by_cases hacc : 0 < p.value
            ((nb :: nbs)[co t % (nb :: nbs).length]).state -
            p.value cur.state ∨ ao t
        · obtain ⟨r, h1, h2⟩ := ih (t + 1)
            ((nb :: nbs)[co t % (nb :: nbs).length]) (vis + 1)
            (by omega) (by omega)
          refine ⟨r, ?_, ?_⟩
          · rw [saLoop, if_neg hT, hexp]
            simp only [hch]
            rw [if_pos hacc]
            exact h1
          · intro fuel2 hf2
            obtain ⟨f2, rfl⟩ : ∃ f2, fuel2 = f2 + 1 := ⟨fuel2 - 1, by omega⟩
            rw [saLoop, if_neg hT, hexp]
            simp only [hch]
            rw [if_pos hacc]
            exact h2 f2 (by omega)
        · obtain ⟨r, h1, h2⟩ := ih (t + 1) cur vis (by omega) (by omega)
          refine ⟨r, ?_, ?_⟩
          · rw [saLoop, if_neg hT, hexp]
            simp only [hch]
            rw [if_neg hacc]
            exact h1
          · intro fuel2 hf2
            obtain ⟨f2, rfl⟩ : ∃ f2, fuel2 = f2 + 1 := ⟨fuel2 - 1, by omega⟩
            rw [saLoop, if_neg hT, hexp]
            simp only [hch]
            rw [if_neg hacc]
            exact h2 f2 (by omega)

/-- C10: the default schedule `exp_schedule()` returns 0 for every
`t >= 100` (whatever the transcendental `exp` returns on the earlier
branch), so `simulated_annealing` with the default schedule returns within
at most 101 iterations for every problem and every choice/acceptance
randomness: any fuel of at least 101 yields the same `some` triple as fuel
exactly 101. -/
theorem claim_C10 (p : Problem σ α) (e : ℚ → ℚ) (co : ℕ → ℕ)
    (ao : ℕ → Bool) :
    (∀ t, 100 ≤ t → exp_schedule e 20 (1 / 200) 100 t = 0) ∧
    (∀ maxsize, 101 ≤ maxsize →
      simulated_annealing p (exp_schedule e 20 (1 / 200) 100) co ao
          maxsize =
        simulated_annealing p (exp_schedule e 20 (1 / 200) 100) co ao
          101 ∧
      (simulated_annealing p (exp_schedule e 20 (1 / 200) 100) co ao
          maxsize).isSome = true) := by
  have hsched : exp_schedule e 20 (1 / 200) 100 100 = 0 := by
    rw [exp_schedule]
    simp
  constructor
  · intro t ht
    rw [exp_schedule]
    rw [if_neg (Nat.not_lt.mpr ht)]
  · intro maxsize hms
    obtain ⟨r, h1, h2⟩ := saLoop_stable p
      (exp_schedule e 20 (1 / 200) 100) co ao hsched maxsize 0
      (Node.root p.initial) 0 (by omega) (by omega)
    refine ⟨?_, ?_⟩
    · rw [simulated_annealing, simulated_annealing, h1, h2 101 (by omega)]
    · rw [simulated_annealing, h1]
      rfl

/-- C10 witness: a default-schedule run with fuel 101 produces a triple. -/
theorem claim_C10_witness :
    (simulated_annealing goalP
      (exp_schedule (fun _ => 1) 20 (1 / 200) 100) (fun _ => 0)
      (fun _ => false) 101).isSome = true :=
  ((claim_C10 goalP (fun _ => 1) (fun _ => 0) (fun _ => false)).2 101
    (by decide)).2

lemma dlookup_cons [DecidableEq κ] (kv : κ × β) (t : List (κ × β))
    (k : κ) :
    dlookup (kv :: t) k = if kv.1 = k then some kv.2 else dlookup t k := by
  rw [dlookup, List.find?]
  by_cases h : kv.1 = k
  · simp [h]
  · simp [h, dlookup]

lemma dlookup_append_some [DecidableEq κ] (l1 l2 : List (κ × β)) (k : κ)
    (w : β) (h : dlookup l1 k = some w) : dlookup (l1 ++ l2) k = some w := by
  induction l1 with
  | nil => exact Option.noConfusion h
  | cons kv t ih =>
    rw [dlookup_cons] at h
    rw [List.cons_append, dlookup_cons]
    by_cases hk : kv.1 = k
    · rw [if_pos hk] at *; exact h
    · rw [if_neg hk] at *; exact ih h

lemma dlookup_append_none [DecidableEq κ] (l1 l2 : List (κ × β)) (k : κ)
    (h : dlookup l1 k = Option.none) :
    dlookup (l1 ++ l2) k = dlookup l2 k := by
  induction l1 with
  | nil => rfl
  | cons kv t ih =>
    rw [dlookup_cons] at h
    rw [List.cons_append, dlookup_cons]
    by_cases hk : kv.1 = k
    · rw [if_pos hk] at h; exact Option.noConfusion h
    · rw [if_neg hk] at *; exact ih h

lemma dlookup_singleton_self [DecidableEq κ] (k : κ) (v : β) :
    dlookup [(k, v)] k = some v := by
  rw [dlookup_cons]
  simp

lemma dlookup_singleton_ne [DecidableEq κ] (k k2 : κ) (v : β)
    (h : k2 ≠ k) : dlookup [(k2, v)] k = Option.none := by
  rw [dlookup_cons]
  simp [h, dlookup]

lemma dlookup_mapset_self [DecidableEq κ] (l : List (κ × β)) (k : κ)
    (v : β) (h : (dlookup l k).isSome = true) :
    dlookup (l.map fun kv => if kv.1 = k then (k, v) else kv) k =
      some v := by
  induction l with
  | nil => exact absurd h (by rw [dlookup]; simp [List.find?])
  | cons kv t ih =>
    rw [dlookup_cons] at h
    rw [List.map_cons]
    by_cases hk : kv.1 = k
    · rw [if_pos hk, dlookup_cons]
      simp
    · rw [if_neg hk, dlookup_cons, if_neg hk]
      rw [if_neg hk] at h
      exact ih h

lemma dlookup_mapset_ne [DecidableEq κ] (l : List (κ × β)) (k k2 : κ)
    (v : β) (h : k2 ≠ k) :
    dlookup (l.map fun kv => if kv.1 = k2 then (k2, v) else kv) k =
      dlookup l k := by
  induction l with
  | nil => rfl
  | cons kv t ih =>
    rw [List.map_cons]
    by_cases hk : kv.1 = k2
    · rw [if_pos hk, dlookup_cons, dlookup_cons]
      rw [if_neg (show ¬ ((k2, v).1 = k) from h), if_neg (hk ▸ h)]
      exact ih
    · rw [if_neg hk, dlookup_cons, dlookup_cons]
      by_cases hk2 : kv.1 = k
      · rw [if_pos hk2, if_pos hk2]
      · rw [if_neg hk2, if_neg hk2]
        exact ih

lemma dlookup_dset_self [DecidableEq κ] (l : List (κ × β)) (k : κ)
    (v : β) : dlookup (dset l k v) k = some v := by
  rw [dset]
  by_cases h : (dlookup l k).isSome
  · rw [if_pos h]
    exact dlookup_mapset_self l k v h
  · rw [if_neg h]
    have hn : dlookup l k = Option.none := by
      cases hl : dlookup l k
      · rfl
      · rw [hl] at h; exact absurd rfl h
    rw [dlookup_append_none l [(k, v)] k hn]
    exact dlookup_singleton_self k v

lemma dlookup_dset_ne [DecidableEq κ] (l : List (κ × β)) (k k2 : κ)
    (v : β) (h : k2 ≠ k) : dlookup (dset l k2 v) k = dlookup l k := by
  rw [dset]
  by_cases hs : (dlookup l k2).isSome
  · rw [if_pos hs]
    exact dlookup_mapset_ne l k k2 v h
  · rw [if_neg hs]
    cases hl : dlookup l k with
    | none =>
      rw [dlookup_append_none l [(k2, v)] k hl]
      exact dlookup_singleton_ne k k2 v h
    | some w => exact dlookup_append_some l [(k2, v)] k w hl

lemma dfsBook_untried_eq [DecidableEq σ] [DecidableEq α]
    (p : Problem σ α) (ag : DFSAgent σ α) (s1 : σ) :
    (dfsBook p ag s1).untried =
      match dlookup ag.untried s1 with
      | Option.none => ag.untried ++ [(s1, p.actions s1)]
      | some _ => ag.untried := by
  cases hs : ag.s with
  | none => simp only [dfsBook, hs]
  | some s0 =>
    by_cases hres : dlookup ag.result (s0, ag.a) = some s1
    · simp only [dfsBook, hs, if_pos hres]
    · simp only [dfsBook, hs, if_neg hres]

lemma dfsBook_untried_lookup [DecidableEq σ] [DecidableEq α]
    (p : Problem σ α) (ag : DFSAgent σ α) (s1 : σ) :
    dlookup (dfsBook p ag s1).untried s1 = some (untriedOf p ag s1) := by
  rw [dfsBook_untried_eq, untriedOf]
  cases hl : dlookup ag.untried s1 with
  | none =>
    rw [dlookup_append_none _ _ _ hl, dlookup_singleton_self]
    rfl
  | some v => exact hl

lemma dfsBook_untriedOf [DecidableEq σ] [DecidableEq α]
    (p : Problem σ α) (ag : DFSAgent σ α) (s1 s : σ) :
    untriedOf p (dfsBook p ag s1) s = untriedOf p ag s := by
  by_cases hss : s = s1
  · subst hss
    rw [untriedOf, dfsBook_untried_lookup]
    rfl
  · rw [untriedOf, untriedOf, dfsBook_untried_eq]
    cases hl : dlookup ag.untried s1 with
    | none =>
      cases hls : dlookup ag.untried s with
      | none =>
        rw [dlookup_append_none _ _ _ hls,
          dlookup_singleton_ne _ _ _ (fun h => hss h.symm)]
      | some w => rw [dlookup_append_some _ _ _ _ hls]
    | some v => rfl

lemma dfsCall_untried_pop [DecidableEq σ] [DecidableEq α]
    (p : Problem σ α) (ag : DFSAgent σ α) (s1 : σ) (a : α) (r : List α)
    (hg : p.goal_test s1 = false) (hu : untriedOf p ag s1 = a :: r) :
    (dfsCall p ag s1).2 = some a ∧
    untriedOf p ((dfsCall p ag s1).1) s1 = r := by
  rw [dfsCall, if_neg (by simp [hg])]
  rw [dfsDecide]
  simp only [dfsBook_untried_lookup, hu, Option.getD_some]
  constructor
  · trivial
  · simp only [untriedOf, dlookup_dset_self, Option.getD_some]

lemma dfsCall_untried_suffix [DecidableEq σ] [DecidableEq α]
    (p : Problem σ α) (ag : DFSAgent σ α) (t s : σ) :
    untriedOf p ((dfsCall p ag t).1) s <:+ untriedOf p ag s := by
  rw [dfsCall]
  by_cases hg : p.goal_test t
  · rw [if_pos hg]
    exact List.suffix_refl _
  · rw [if_neg hg]
    rw [dfsDecide]
    cases hdl : (dlookup (dfsBook p ag t).untried t).getD [] with
    | nil =>
      cases hbk : (dlookup (dfsBook p ag t).unbacktracked t).getD [] with
      | nil =>
        simp only [hdl, hbk]
        show untriedOf p (dfsBook p ag t) s <:+ untriedOf p ag s
        rw [dfsBook_untriedOf p ag t s]
      | cons back rest =>
        simp only [hdl, hbk]
        show untriedOf p (dfsBook p ag t) s <:+ untriedOf p ag s
        rw [dfsBook_untriedOf p ag t s]
    | cons act rest =>
      simp only [hdl]
      by_cases hst : s = t
      · rw [hst]
        have huag : untriedOf p ag t = act :: rest := by
          have hb := dfsBook_untried_lookup p ag t
          rw [hb] at hdl
          simpa using hdl
        show (dlookup (dset (dfsBook p ag t).untried t rest) t).getD
          (p.actions t) <:+ untriedOf p ag t
        rw [dlookup_dset_self, Option.getD_some, huag]
        exact List.suffix_cons act rest
      · show (dlookup (dset (dfsBook p ag t).untried t rest) s).getD
          (p.actions s) <:+ untriedOf p ag s
        rw [dlookup_dset_ne _ _ _ _ (fun h => hst h.symm)]
        show untriedOf p (dfsBook p ag t) s <:+ untriedOf p ag s
        rw [dfsBook_untriedOf p ag t s]

lemma dfsRun_untried_suffix [DecidableEq σ] [DecidableEq α]
    (p : Problem σ α) :
    ∀ (ps : List σ) (ag : DFSAgent σ α) (s : σ),
      untriedOf p (ps.foldl (fun ag t => (dfsCall p ag t).1) ag) s <:+
        untriedOf p ag s := by
  intro ps
  induction ps with
  | nil => intro ag s; exact List.suffix_refl _
  | cons t rest ih =>
    intro ag s
    rw [List.foldl_cons]
    exact (ih _ s).trans (dfsCall_untried_suffix p ag t s)

/-- C8 counterexample: percepts 0, 1, 2, 2 on `onlineP` (state 2 has one
action, states 0 and 1 none, no goals).  At the fourth call the agent's
backtrack list for state 2 is nonempty — `[1]` at entry and `[2, 1]` at
the decision point after bookkeeping — yet the call returns no action:
backtracking pops state 2 and replays the action recorded as leading
there, which is the stored no-action `None` from the key `(1, None)`.
So "returns no action exactly when the untried and backtrack lists are
both empty" is false. -/
theorem claim_C8_counterexample :
    (dfsCall onlineP (dfsRunAgent onlineP [0, 1, 2]) 2).2 = Option.none ∧
    (dlookup (dfsRunAgent onlineP [0, 1, 2] :
        DFSAgent ℕ ℕ).unbacktracked 2).getD [] = [1] ∧
    (dlookup (dfsBook onlineP (dfsRunAgent onlineP [0, 1, 2])
        2).unbacktracked 2).getD [] = [2, 1] := ⟨rfl, rfl, rfl⟩

/-- C8 (amended): a call at a goal state returns no action; a call whose
current state has an empty untried list and an empty backtrack list at
the decision point returns no action; and — for problems whose action
lists have no duplicates — the agent never returns the same untried
action twice from the same state: if the calls at positions `|ps1|` and
`|ps1 ++ s :: ps2|` of a run both take the untried branch at state `s`,
they return different actions.  The converse of the empty-lists clause is
false (see the counterexample): the agent can return no action with a
nonempty backtrack list, by replaying a recorded no-action transition. -/
theorem claim_C8 [DecidableEq σ] [DecidableEq α] (p : Problem σ α) :
    (∀ (ag : DFSAgent σ α) (s1 : σ), p.goal_test s1 = true →
      (dfsCall p ag s1).2 = Option.none) ∧
    (∀ (ag : DFSAgent σ α) (s1 : σ),
      (dlookup ag.untried s1).getD [] = [] →
      (dlookup ag.unbacktracked s1).getD [] = [] →
      (dfsDecide p ag s1).2 = Option.none) ∧
    (∀ s : σ, (p.actions s).Nodup →
      ∀ ps1 ps2 : List σ,
        untriedTaken p (dfsRunAgent p ps1) s = true →
        untriedTaken p (dfsRunAgent p (ps1 ++ s :: ps2)) s = true →
        (dfsCall p (dfsRunAgent p ps1) s).2 ≠
          (dfsCall p (dfsRunAgent p (ps1 ++ s :: ps2)) s).2) := by
  refine ⟨?_, ?_, ?_⟩
  · intro ag s1 hg
    rw [dfsCall, if_pos hg]
  · intro ag s1 hu hb
    rw [dfsDecide]
    simp only [hu, hb]
  · intro s hnd ps1 ps2 h1 h2
    have hg : p.goal_test s = false := by
      cases hgt : p.goal_test s
      · rfl
      · rw [untriedTaken, hgt] at h1
        simp at h1
    cases hu1 : untriedOf p (dfsRunAgent p ps1) s with
    | nil =>
      rw [untriedTaken, hu1] at h1
      simp at h1
    | cons a r =>
      have hpop1 := dfsCall_untried_pop p _ s a r hg hu1
      have hrun2 : dfsRunAgent p (ps1 ++ s :: ps2) =
          ps2.foldl (fun ag t => (dfsCall p ag t).1)
            ((dfsCall p (dfsRunAgent p ps1) s).1) := by
        rw [dfsRunAgent, dfsRunAgent, List.foldl_append, List.foldl_cons]
      have hsuf : untriedOf p (dfsRunAgent p (ps1 ++ s :: ps2)) s <:+ r := by
        rw [hrun2]
        have h3 := dfsRun_untried_suffix p ps2
          ((dfsCall p (dfsRunAgent p ps1) s).1) s
        rw [hpop1.2] at h3
        exact h3
      cases hu2 : untriedOf p (dfsRunAgent p (ps1 ++ s :: ps2)) s with
      | nil =>
        rw [untriedTaken, hu2] at h2
        simp at h2
      | cons b r2 =>
        have hpop2 := dfsCall_untried_pop p _ s b r2 hg hu2
        have hbr : b ∈ r := by
          rw [hu2] at hsuf
          exact hsuf.sublist.subset (List.mem_cons_self b r2)
        have hnd1 : (a :: r).Nodup := by
          have hsub : untriedOf p (dfsRunAgent p ps1) s <:+ p.actions s :=
            dfsRun_untried_suffix p ps1 DFSAgent.init s
          rw [hu1] at hsub
          exact hnd.sublist hsub.sublist
        have hane : a ∉ r := (List.nodup_cons.mp hnd1).1
        rw [hpop1.1, hpop2.1]
        intro heq
        exact hane (by rw [Option.some.inj heq]; exact hbr)

/-- C8 witness: the empty-lists clause at the initial agent. -/
theorem claim_C8_witness :
    (dfsDecide onlineP DFSAgent.init 0).2 = Option.none :=
  (claim_C8 onlineP).2.1 DFSAgent.init 0 rfl rfl
